import Mathlib

/-!
Verification development for the gtfsrt2lc repository (GTFS-RT to Linked
Connections converter).  The JavaScript sources under `src/lib/` are shallowly
embedded here:

* `Gtfsrt2LC.js` — the delay merge engine (`parse`, lines 78-194), duration
  parsing and `resolveScheduleRelationship`;
* `GtfsIndex.js` — the static schedule indexer (full build via shell `sort`
  plus a streaming group-by scan, scoped extraction via `grep`, and the
  failure/cleanup control flow of `getIndexes`/`createIndexes`).

Strings are embedded as `List Char` so that every definition is executable by
kernel reduction.  JavaScript dynamic values that matter to the code paths
under study are made explicit: a possibly-`undefined` object field becomes an
`Option`, JavaScript string/number coercion (`ToNumber`), `parseInt`, loose
equality `==` against a number, and string concatenation of a string with a
number are modelled by dedicated functions below.  Calendar days are modelled
as uniform 86400-second days (local-time DST shifts are outside the model).
-/

/-- Character strings of the embedded program. -/
abbrev Str := List Char

namespace JsPrim

/-- Decimal digit test, `'0' ≤ c ≤ '9'`. -/
def isDigitCh (c : Char) : Bool := 48 ≤ c.toNat && c.toNat ≤ 57

/-- Space/tab test (the whitespace JavaScript trims before numeric coercion). -/
def isSpaceCh (c : Char) : Bool := c.toNat = 32 || c.toNat = 9

/-- Numeric value of a decimal digit character. -/
def digitVal (c : Char) : Nat := c.toNat - 48

/-- Value of a string of decimal digits (most significant first). -/
def natOfDigits (l : List Char) : Nat := l.foldl (fun acc c => acc * 10 + digitVal c) 0

/-- Decimal digits of a natural number, most significant first (fuel-indexed). -/
def natDigitsAux : Nat → Nat → List Char
  | 0, _ => []
  | fuel + 1, n =>
    if n < 10 then [Char.ofNat (48 + n)]
    else natDigitsAux fuel (n / 10) ++ [Char.ofNat (48 + n % 10)]

/-- Decimal digits of a natural number, most significant first. -/
def natDigits (n : Nat) : List Char := natDigitsAux (n + 1) n

/-- JavaScript's decimal rendering of an integer (as produced when a number is
concatenated onto a string). -/
def jsNumRepr : Int → Str
  | Int.ofNat n => natDigits n
  | Int.negSucc n => '-' :: natDigits (n + 1)

/-- JavaScript `ToNumber` on a string, restricted to integer numerals: the
trimmed empty string is `0`, an optionally signed digit string is its value,
anything else is `NaN` (`none`). -/
def jsToNumber (s : Str) : Option Int :=
  let t := ((s.dropWhile isSpaceCh).reverse.dropWhile isSpaceCh).reverse
  match t with
  | [] => some 0
  | '-' :: rest =>
    if rest ≠ [] && rest.all isDigitCh then some (-(natOfDigits rest : Int)) else none
  | '+' :: rest =>
    if rest ≠ [] && rest.all isDigitCh then some (natOfDigits rest : Int) else none
  | _ => if t.all isDigitCh then some (natOfDigits t : Int) else none

/-- Longest leading digit run as an integer (`NaN`/`none` when empty). -/
def parseIntCore (u : Str) : Option Int :=
  if u.takeWhile isDigitCh = [] then none
  else some (natOfDigits (u.takeWhile isDigitCh) : Int)

/-- JavaScript `parseInt` on a string: skip leading whitespace, read an optional
sign and then the longest digit run; no digits means `NaN` (`none`). -/
def parseIntJs (s : Str) : Option Int :=
  match s.dropWhile isSpaceCh with
  | [] => none
  | c :: rest =>
    if c = '-' then (parseIntCore rest).map (fun n => -n)
    else if c = '+' then parseIntCore rest
    else parseIntCore (c :: rest)

/-- JavaScript loose equality `v == n` between a possibly-`undefined` string
value and a number: `undefined == n` is false, and a string compares by
`ToNumber` (so `"" == 0` is true and `NaN` compares unequal). -/
def jsLooseEqNum (v : Option Str) (n : Int) : Bool :=
  match v with
  | none => false
  | some s => jsToNumber s = some n

/-- Truthiness of a possibly-`undefined` string value (`undefined` and `""`
are falsy). -/
def isTruthy (v : Option Str) : Bool :=
  match v with
  | none => false
  | some s => s ≠ []

end JsPrim

namespace Gtfsrt2LC

open JsPrim

/-- GTFS-RT `StopTimeEvent` (the fields the code reads: `delay`). -/
structure StopTimeEvent where
  delay : Int
  deriving DecidableEq, Repr

/-- GTFS-RT `StopTimeUpdate`: a stop id plus optional departure/arrival
events; a missing message field decodes to `undefined`, hence `Option`. -/
structure StopTimeUpdate where
  stop_id : Str
  departure : Option StopTimeEvent
  arrival : Option StopTimeEvent
  deriving DecidableEq, Repr

/-- One row of `stop_times.txt` as the merge engine consumes it.  Field values
come from CSV/grep parsing, so textual fields are strings; `pickup_type` and
`drop_off_type` may be absent (`undefined`). -/
structure StopTime where
  stop_id : Str
  arrival_time : Str
  departure_time : Str
  pickup_type : Option Str
  drop_off_type : Option Str
  deriving DecidableEq, Repr

/-- `Gtfsrt2LC.resolveScheduleRelationship` (Gtfsrt2LC.js lines 367-378):
`value == 0` yields `'gtfs:Regular'`, `value == 1` yields
`'gtfs:NotAvailable'`, anything else yields `null` — with JavaScript loose
equality against the string-valued CSV field. -/
def resolveScheduleRelationship (value : Option Str) : Option Str :=
  if jsLooseEqNum value 0 then some "gtfs:Regular".toList
  else if jsLooseEqNum value 1 then some "gtfs:NotAvailable".toList
  else none

/-- The absolute instant built by `new Date(year, month, day, H, M, S + delay, 0)`
(Gtfsrt2LC.js lines 133-146): the time string is split on `':'`, and the
seconds *string* is concatenated with the numeric delay (JavaScript `string +
number`), then every component is coerced with `ToNumber`.  The result is the
offset in seconds from the epoch, with `anchorDay` the (normalised) calendar
day of the trip start instant; `none` is an `Invalid Date`. -/
def hopInstant (anchorDay : Option Int) (time : Str) (delay : Int) : Option Int :=
  let parts := time.splitOn ':'
  let h? := parts[0]?.bind jsToNumber
  let m? := parts[1]?.bind jsToNumber
  let s? := match parts[2]? with
            | none => none
            | some s => jsToNumber (s ++ jsNumRepr delay)
  match anchorDay, h?, m?, s? with
  | some d, some h, some m, some s => some (d * 86400 + h * 3600 + m * 60 + s)
  | _, _, _, _ => none

/-- The connection record assembled per hop (Gtfsrt2LC.js lines 126-185),
restricted to the non-URI fields.  Note the source reads
`stop_times[j + 1].departure_time` for the arrival instant. -/
structure Conn where
  departureStop : Str
  arrivalStop : Str
  departureTime : Option Int
  arrivalTime : Option Int
  departureDelay : Int
  arrivalDelay : Int
  pickupType : Option Str
  dropOffType : Option Str
  deriving DecidableEq, Repr

/-- Build the connection for the hop `a → b` with the current running delays. -/
def mkConn (anchorDay : Option Int) (a b : StopTime) (dep arr : Int) : Conn where
  departureStop := a.stop_id
  arrivalStop := b.stop_id
  departureTime := hopInstant anchorDay a.departure_time dep
  arrivalTime := hopInstant anchorDay b.departure_time arr
  departureDelay := dep
  arrivalDelay := arr
  pickupType := resolveScheduleRelationship a.pickup_type
  dropOffType := resolveScheduleRelationship b.drop_off_type

/-- Mutable state of the pairwise walk: the observation cursor `update_index`
and the running `departureDelay`/`arrivalDelay`. -/
structure WalkState where
  idx : Nat
  depDelay : Int
  arrDelay : Int
  deriving DecidableEq, Repr

/-- Application of the cursor's observation when `stop_times[j].stop_id ===
update.stop_id` (Gtfsrt2LC.js lines 86-108): both events present takes both
delays, departure-only resets the arrival delay to 0, arrival-only resets the
departure delay to 0, neither present leaves the delays unchanged; in every
case `update_index` advances by one. -/
def applyPhase (a : StopTime) (u : StopTimeUpdate) (s : WalkState) : WalkState :=
  if a.stop_id = u.stop_id then
    match u.departure, u.arrival with
    | some d, some r => ⟨s.idx + 1, d.delay, r.delay⟩
    | some d, none => ⟨s.idx + 1, d.delay, 0⟩
    | none, some r => ⟨s.idx + 1, 0, r.delay⟩
    | none, none => ⟨s.idx + 1, s.depDelay, s.arrDelay⟩
  else s

/-- Outcome of one loop iteration: either a connection was pushed or an
exception was caught by the per-hop `catch` and the hop skipped (a `TypeError`
from the unguarded lookahead read, or a `RangeError` from
`departureTime.toISOString()` / `arrivalTime.toISOString()` on an Invalid
Date, Gtfsrt2LC.js lines 176-177 and 189-193). -/
inductive StepOut where
  | conn (c : Conn)
  | skip
  deriving DecidableEq, Repr

/-- Pushing the assembled connection (Gtfsrt2LC.js lines 170-187): the
record is pushed only if both `toISOString()` calls succeed; an Invalid Date
— any `NaN` component, e.g. the seconds string concatenated with a negative
delay (`"00" + (-120) = "00-120"`) — throws a `RangeError` that the per-hop
`catch` turns into a skipped hop.  The state assignments (lines 86-123)
precede both throw points, so a skipped hop still carries its state
effects. -/
def connOut (c : Conn) : StepOut :=
  if c.departureTime.isSome && c.arrivalTime.isSome then .conn c else .skip

/-- One iteration of the walk for the hop `(stop_times[j], stop_times[j+1]) =
(a, b)` with `u` the cursor's observation (Gtfsrt2LC.js lines 86-193): apply a
matching observation, then the lookahead — if the *new* current observation
names stop `j+1`, read `update.arrival.delay`, which throws a `TypeError`
(caught, hop skipped) when that observation has no `arrival` — then build the
connection and push it if its two dates are valid (`connOut`). -/
def walkStep (updates : List StopTimeUpdate) (anchorDay : Option Int) (a b : StopTime)
    (u : StopTimeUpdate) (s : WalkState) : WalkState × StepOut :=
  let s1 := applyPhase a u s
  match updates[s1.idx]? with
  | some u' =>
    if b.stop_id = u'.stop_id then
      match u'.arrival with
      | some ev => (⟨s1.idx, s1.depDelay, ev.delay⟩,
          connOut (mkConn anchorDay a b s1.depDelay ev.delay))
      | none => (s1, .skip)
    else (s1, connOut (mkConn anchorDay a b s1.depDelay s1.arrDelay))
  | none => (s1, connOut (mkConn anchorDay a b s1.depDelay s1.arrDelay))

/-- The `for (j = 0; j < stop_times.length - 1; j++)` loop over consecutive
stop pairs: if the cursor's observation is `undefined` the loop `break`s
(Gtfsrt2LC.js lines 81-83), otherwise one iteration runs and the walk
continues.  Returns the iteration outcomes in order together with the final
state. -/
def runWalkAux (updates : List StopTimeUpdate) (anchorDay : Option Int) :
    List (StopTime × StopTime) → WalkState → List StepOut × WalkState
  | [], s => ([], s)
  | (a, b) :: rest, s =>
    match updates[s.idx]? with
    | none => ([], s)
    | some u =>
      ((walkStep updates anchorDay a b u s).2
          :: (runWalkAux updates anchorDay rest (walkStep updates anchorDay a b u s).1).1,
        (runWalkAux updates anchorDay rest (walkStep updates anchorDay a b u s).1).2)

/-- The consecutive stop pairs `(stop_times[j], stop_times[j+1])`. -/
def pairsOf (st : List StopTime) : List (StopTime × StopTime) := st.zip st.tail

/-- The whole pairwise walk of one trip update, from the initial state
`update_index = 0`, `departureDelay = 0`, `arrivalDelay = 0`
(Gtfsrt2LC.js lines 60-71). -/
def runWalk (anchorDay : Option Int) (st : List StopTime) (updates : List StopTimeUpdate) :
    List StepOut × WalkState :=
  runWalkAux updates anchorDay (pairsOf st) ⟨0, 0, 0⟩

/-- Number of loop iterations executed before the cursor is exhausted: the
cursor index evolves independently of the running delays, advancing exactly
when the current stop matches the observation. -/
def cursorSteps (updates : List StopTimeUpdate) :
    List (StopTime × StopTime) → Nat → Nat
  | [], _ => 0
  | (a, _) :: rest, idx =>
    match updates[idx]? with
    | none => 0
    | some u =>
      cursorSteps updates rest (if a.stop_id = u.stop_id then idx + 1 else idx) + 1

/-- `Gtfsrt2LC.parseGTFSDuration` (lines 307-311): split on `':'`, `parseInt`
each part (a missing part is `undefined`, a failed parse `NaN`), and default
the seconds to `0` when falsy (`seconds ? seconds : 0`). -/
def parseGTFSDuration (s : Str) : Option Int × Option Int × Int :=
  let ps := s.splitOn ':'
  (ps[0]?.bind parseIntJs, ps[1]?.bind parseIntJs,
    ((ps[2]?.bind parseIntJs).map (fun v => if v = 0 then 0 else v)).getD 0)

/-- The static `trips.txt` record as far as the merge engine reads it. -/
structure Trip where
  trip_headsign : Option Str
  deriving DecidableEq, Repr

/-- One decoded trip-update entity.  `serviceDay` abstracts the calendar day
number of `new Date(yyyy, mm - 1, dd)` built from `start_date`
(Gtfsrt2LC.js line 40); the Gregorian calendar itself is not modelled. -/
structure FeedEntity where
  trip_id : Str
  serviceDay : Int
  start_time : Str
  stop_time_update : List StopTimeUpdate
  deriving DecidableEq, Repr

/-- The trip start instant: midnight of the service day plus the parsed
start-time duration (`addDuration`, lines 41 and 303-305); `none` when the
hours or minutes field is `NaN`. -/
def tripStartTimeOf (e : FeedEntity) : Option Int :=
  match parseGTFSDuration e.start_time with
  | (some h, some m, sec) => some (e.serviceDay * 86400 + h * 3600 + m * 60 + sec)
  | _ => none

/-- The anchor day used for every hop of the trip: the code re-reads
`getFullYear`/`getMonth`/`getDate` from `new Date(tripStartTime)` (lines
53 and 126-128), i.e. the day that instant falls in — not necessarily the
service day when `start_time` is 24:00:00 or later. -/
def anchorDayOf (e : FeedEntity) : Option Int :=
  (tripStartTimeOf e).map (fun t => t.fdiv 86400)

/-- The two read-only indexes the merge engine consults per entity. -/
structure StaticIndexes where
  trips : Str → Option Trip
  stop_times : Str → Option (List StopTime)

/-- What becomes of one trip-update entity. -/
inductive EntityResult where
  | unknownTrip
  | fatal
  | ok (outs : List StepOut)
  deriving DecidableEq

/-- Per-entity processing (Gtfsrt2LC.js lines 36-195): an entity whose trip id
misses the trip index is logged and skipped (`return`, lines 43-47); if the
trip index has it but the stop-times index does not, `stop_times.length`
throws outside any per-hop `catch` and rejects the whole `Promise.all`
(`fatal`); otherwise the pairwise walk runs. -/
def processEntity (idx : StaticIndexes) (e : FeedEntity) : EntityResult :=
  if (idx.trips e.trip_id).isNone then .unknownTrip
  else
    match idx.stop_times e.trip_id with
    | none => .fatal
    | some st => .ok (runWalk (anchorDayOf e) st e.stop_time_update).1

/-- Every entity of the decoded feed is processed independently
(`feed.entity.map`, line 35). -/
def processFeed (idx : StaticIndexes) (es : List FeedEntity) : List EntityResult :=
  es.map (processEntity idx)

/-- Delay pair carried by an emitted connection, for stating claims. -/
def delaysOf : StepOut → Option (Int × Int)
  | .conn c => some (c.departureDelay, c.arrivalDelay)
  | .skip => none

/-- Time pair carried by an emitted connection, for stating claims. -/
def timesOf : StepOut → Option (Option Int × Option Int)
  | .conn c => some (c.departureTime, c.arrivalTime)
  | .skip => none

/-- Pickup/drop-off pair carried by an emitted connection. -/
def typesOf : StepOut → Option (Option Str × Option Str)
  | .conn c => some (c.pickupType, c.dropOffType)
  | .skip => none

end Gtfsrt2LC

namespace Gtfsrt2LC

open JsPrim

/-! ### Helper lemmas about the walk -/

/-- The cursor index after the application phase: `update_index` advances by
one exactly when the current static stop matched the observation. -/
theorem applyPhase_idx (a : StopTime) (u : StopTimeUpdate) (s : WalkState) :
    (applyPhase a u s).idx = if a.stop_id = u.stop_id then s.idx + 1 else s.idx := by
  by_cases h : a.stop_id = u.stop_id
  · simp only [applyPhase, h, if_true]
    cases u.departure <;> cases u.arrival <;> rfl
  · simp only [applyPhase, h, if_false]

/-- The lookahead never moves the cursor: after a full iteration the cursor
sits where the application phase left it. -/
theorem walkStep_idx (ups : List StopTimeUpdate) (ad : Option Int) (a b : StopTime)
    (u : StopTimeUpdate) (s : WalkState) :
    ((walkStep ups ad a b u s).1).idx = (applyPhase a u s).idx := by
  simp only [walkStep]
  cases ups[(applyPhase a u s).idx]? with
  | none => rfl
  | some u' =>
    by_cases hb : b.stop_id = u'.stop_id
    · simp only [hb, if_true]
      cases u'.arrival <;> rfl
    · simp only [hb, if_false]

/-- The running departure delay is likewise fixed by the application phase. -/
theorem walkStep_depDelay (ups : List StopTimeUpdate) (ad : Option Int) (a b : StopTime)
    (u : StopTimeUpdate) (s : WalkState) :
    ((walkStep ups ad a b u s).1).depDelay = (applyPhase a u s).depDelay := by
  simp only [walkStep]
  cases ups[(applyPhase a u s).idx]? with
  | none => rfl
  | some u' =>
    by_cases hb : b.stop_id = u'.stop_id
    · simp only [hb, if_true]
      cases u'.arrival <;> rfl
    · simp only [hb, if_false]

/-- A push attempt either succeeds on the built connection or is skipped. -/
theorem connOut_cases (c : Conn) : connOut c = .skip ∨ connOut c = .conn c := by
  unfold connOut
  by_cases h : (c.departureTime.isSome && c.arrivalTime.isSome) = true
  · rw [if_pos h]; exact Or.inr rfl
  · rw [if_neg h]; exact Or.inl rfl

/-- A connection with two valid dates is pushed. -/
theorem connOut_conn (c : Conn) (h1 : c.departureTime.isSome = true)
    (h2 : c.arrivalTime.isSome = true) : connOut c = .conn c := by
  unfold connOut
  rw [if_pos (by rw [h1, h2]; rfl)]

/-- A connection with an invalid date is skipped (`toISOString` throws). -/
theorem connOut_skip (c : Conn)
    (h : c.departureTime.isSome = false ∨ c.arrivalTime.isSome = false) :
    connOut c = .skip := by
  unfold connOut
  rcases h with h | h
  · rw [if_neg (by rw [h]; simp)]
  · rw [if_neg (by rw [h]; simp)]

/-- The push succeeds exactly when both dates are valid. -/
theorem connOut_eq_conn_iff (c : Conn) :
    connOut c = .conn c ↔
      c.departureTime.isSome = true ∧ c.arrivalTime.isSome = true := by
  constructor
  · intro hc
    by_cases h1 : c.departureTime.isSome = true
    · by_cases h2 : c.arrivalTime.isSome = true
      · exact ⟨h1, h2⟩
      · rw [connOut_skip c (Or.inr (by simpa using h2))] at hc
        exact StepOut.noConfusion hc
    · rw [connOut_skip c (Or.inl (by simpa using h1))] at hc
      exact StepOut.noConfusion hc
  · intro h
    exact connOut_conn c h.1 h.2

/-- Every iteration outcome is a skip or a connection built by `mkConn` for
exactly the pair of stops the iteration walked. -/
theorem walkStep_shape (ups : List StopTimeUpdate) (ad : Option Int) (a b : StopTime)
    (u : StopTimeUpdate) (s : WalkState) :
    (walkStep ups ad a b u s).2 = .skip
    ∨ ∃ dep arr, (walkStep ups ad a b u s).2 = .conn (mkConn ad a b dep arr) := by
  simp only [walkStep]
  cases ups[(applyPhase a u s).idx]? with
  | none =>
    rcases connOut_cases (mkConn ad a b (applyPhase a u s).depDelay
        (applyPhase a u s).arrDelay) with h | h
    · exact Or.inl h
    · exact Or.inr ⟨_, _, h⟩
  | some u' =>
    by_cases hb : b.stop_id = u'.stop_id
    · simp only [hb, if_true]
      cases u'.arrival with
      | none => exact Or.inl rfl
      | some ev =>
        rcases connOut_cases (mkConn ad a b (applyPhase a u s).depDelay ev.delay)
            with h | h
        · exact Or.inl h
        · exact Or.inr ⟨_, _, h⟩
    · simp only [hb, if_false]
      rcases connOut_cases (mkConn ad a b (applyPhase a u s).depDelay
          (applyPhase a u s).arrDelay) with h | h
      · exact Or.inl h
      · exact Or.inr ⟨_, _, h⟩

/-- The number of iteration outcomes produced by the walk depends only on the
cursor trajectory, not on the running delays and not on whether individual
hops were skipped by the per-hop `catch`. -/
theorem runWalkAux_length (ups : List StopTimeUpdate) (ad : Option Int) :
    ∀ (pairs : List (StopTime × StopTime)) (s : WalkState),
      ((runWalkAux ups ad pairs s).1).length = cursorSteps ups pairs s.idx := by
  intro pairs
  induction pairs with
  | nil => intro s; rfl
  | cons p rest ih =>
    intro s
    obtain ⟨a, b⟩ := p
    simp only [runWalkAux, cursorSteps]
    cases h : ups[s.idx]? with
    | none => rfl
    | some u =>
      simp only [List.length_cons, ih, walkStep_idx, applyPhase_idx]

/-- Positional correspondence between iteration outcomes and stop pairs:
the `k`-th outcome, when it is a connection, was built by `mkConn` from the
`k`-th consecutive stop pair. -/
theorem runWalkAux_get_conn (ups : List StopTimeUpdate) (ad : Option Int) :
    ∀ (pairs : List (StopTime × StopTime)) (s : WalkState) (k : Nat) (c : Conn),
      ((runWalkAux ups ad pairs s).1)[k]? = some (.conn c) →
      ∃ a b dep arr, pairs[k]? = some (a, b) ∧ c = mkConn ad a b dep arr := by
  intro pairs
  induction pairs with
  | nil => intro s k c h; simp [runWalkAux] at h
  | cons p rest ih =>
    intro s k c h
    obtain ⟨a, b⟩ := p
    simp only [runWalkAux] at h
    cases hg : ups[s.idx]? with
    | none => rw [hg] at h; simp at h
    | some u =>
      rw [hg] at h
      cases k with
      | zero =>
        simp only [List.getElem?_cons_zero] at h
        rcases walkStep_shape ups ad a b u s with hs | ⟨dep, arr, hs⟩
        · rw [hs] at h; cases h
        · rw [hs] at h
          refine ⟨a, b, dep, arr, by simp, ?_⟩
          cases h; rfl
      | succ k' =>
        simp only [List.getElem?_cons_succ] at h
        obtain ⟨a', b', dep, arr, hp, hc⟩ := ih (walkStep ups ad a b u s).1 k' c h
        exact ⟨a', b', dep, arr, by simpa using hp, hc⟩

end Gtfsrt2LC

namespace Gtfsrt2LC

/-! ### Concrete example data (used by counterexamples and witnesses) -/

/-- Stop A of the spec's end-to-end example, scheduled 08:00:00. -/
def exA : StopTime :=
  ⟨"A".toList, "08:00:00".toList, "08:00:00".toList, some "0".toList, some "0".toList⟩

/-- Stop B of the spec's end-to-end example, scheduled 08:10:00. -/
def exB : StopTime :=
  ⟨"B".toList, "08:10:00".toList, "08:10:00".toList, some "0".toList, some "0".toList⟩

/-- Stop C of the spec's end-to-end example, scheduled 08:20:00. -/
def exC : StopTime :=
  ⟨"C".toList, "08:20:00".toList, "08:20:00".toList, some "0".toList, some "0".toList⟩

/-- A departure-only observation at stop B, +120 s. -/
def exObsBdep : StopTimeUpdate := ⟨"B".toList, some ⟨120⟩, none⟩

/-- A departure-only observation at stop A, +120 s. -/
def exObsAdep : StopTimeUpdate := ⟨"A".toList, some ⟨120⟩, none⟩

/-- An arrival-only observation at stop B, +60 s. -/
def exObsBarr : StopTimeUpdate := ⟨"B".toList, none, some ⟨60⟩⟩

/-- Stop A with scheduled seconds 30 (departure 08:00:30). -/
def exA3 : StopTime :=
  ⟨"A".toList, "08:00:30".toList, "08:00:30".toList, some "0".toList, some "0".toList⟩

/-- Stop B whose arrival (08:20:00) and departure (08:21:00) times differ. -/
def exB3 : StopTime :=
  ⟨"B".toList, "08:20:00".toList, "08:21:00".toList, some "0".toList, some "0".toList⟩

/-- Stop A whose `pickup_type` field is present but empty. -/
def exA6 : StopTime :=
  ⟨"A".toList, "08:00:00".toList, "08:00:00".toList, some [], some "0".toList⟩

end Gtfsrt2LC

open Gtfsrt2LC JsPrim

/-! ### Claims -/

/-- C1, counterexample.  The claim says that for a trip found in the static
index the engine emits one connection per consecutive stop pair for the whole
stop sequence even when the update carries no stop-level observations at all.
On the code, `if (typeof update == 'undefined') break;` (Gtfsrt2LC.js lines
81-83) exits the loop at the first iteration, so a three-stop trip with an
empty observation list yields zero connections instead of two. -/
theorem C1_counterexample :
    (runWalk (some 0) [exA, exB, exC] []).1 = []
    ∧ (pairsOf [exA, exB, exC]).length = 2 := ⟨rfl, rfl⟩

/-- C1, amended.  The walk terminates by `break` (never by an error) as soon
as the observation cursor is exhausted: the number of iteration outcomes
equals the number of iterations the cursor survives, so hops at and after the
exhaustion point are not emitted at all; in particular an update with no
stop-level observations yields no connections. -/
theorem C1_amended :
    ∀ (ups : List StopTimeUpdate) (ad : Option Int) (st : List StopTime),
      ((runWalk ad st ups).1).length = cursorSteps ups (pairsOf st) 0
      ∧ (ups = [] → (runWalk ad st ups).1 = []) := by
  intro ups ad st
  refine ⟨runWalkAux_length ups ad (pairsOf st) ⟨0, 0, 0⟩, ?_⟩
  intro h
  subst h
  cases hp : pairsOf st with
  | nil => simp [runWalk, hp, runWalkAux]
  | cons p rest =>
    obtain ⟨a, b⟩ := p
    simp [runWalk, hp, runWalkAux]

/-- C1, witness for the amended theorem at a concrete input. -/
theorem C1_witness :
    (runWalk (some 0) [exA, exB, exC] []).1 = [] :=
  (C1_amended [] (some 0) [exA, exB, exC]).2 rfl

/-- C3, code bug.  The claim (and the code's own comments, `// Combine the
arrival time with delays`) say each hop's departure instant is the scheduled
departure time-of-day plus the departure delay and the arrival instant is the
arrival stop's scheduled *arrival* time-of-day plus the arrival delay.  The
code instead (i) reads `stop_times[j + 1].departure_time` for the arrival and
(ii) appends the delay's decimal digits to the seconds *string* (JavaScript
`"30" + 120 = "30120"`).  Concretely: stop A departs 08:00:30 with departure
delay 120 and stop B arrives 08:20:00 / departs 08:21:00 with arrival delay 0;
the emitted hop has departure second 58920 (= 8 h + 30120 s) instead of
28950 (= 8 h + 30 s + 120 s), and arrival second 30060 (= 08:21:00) instead
of 30000 (= 08:20:00). -/
theorem C3_code_bug :
    ((runWalk (some 0) [exA3, exB3] [⟨"A".toList, some ⟨120⟩, none⟩]).1)[0]?.bind timesOf
      = some (some 58920, some 30060)
    ∧ (58920 : Int) ≠ 8 * 3600 + 30 + 120
    ∧ (30060 : Int) ≠ 8 * 3600 + 20 * 60 + 0 := by
  refine ⟨rfl, by decide, by decide⟩

/-- C4, counterexample.  The claim says the lookahead never prevents a hop
from being emitted.  With stops A, B, C and a single departure-only
observation at B, iteration 0 satisfies the lookahead condition
(`stop_times[1].stop_id == stop_time_updates[0].stop_id`) and the code reads
`update['arrival']['delay']` with `update.arrival === undefined`
(Gtfsrt2LC.js line 121): the `TypeError` is caught by the per-hop `catch` and
hop A→B is skipped, not emitted. -/
theorem C4_counterexample :
    ((runWalk (some 0) [exA, exB, exC] [exObsBdep]).1)[0]? = some .skip := rfl

/-- C4, amended.  When, after the application phase, the new current
observation names static stop `j + 1`, its arrival delay is pre-applied to
the running state, and the hop is emitted with it exactly when that
observation carries an arrival event *and* the two dates of the built
connection are valid; when the observation has no arrival event the lookahead
read throws a `TypeError`, and when a date is invalid (e.g. a negative delay
concatenated onto the seconds string) `toISOString` throws a `RangeError` —
either way the per-hop `catch` skips the hop rather than emitting it. -/
theorem C4_amended (ups : List StopTimeUpdate) (ad : Option Int) (a b : StopTime)
    (u u' : StopTimeUpdate) (s : WalkState)
    (h1 : ups[(applyPhase a u s).idx]? = some u')
    (h2 : b.stop_id = u'.stop_id) :
    (∀ ev, u'.arrival = some ev →
      ((walkStep ups ad a b u s).1).arrDelay = ev.delay
      ∧ ((walkStep ups ad a b u s).2
            = .conn (mkConn ad a b (applyPhase a u s).depDelay ev.delay)
          ↔ (mkConn ad a b (applyPhase a u s).depDelay ev.delay).departureTime.isSome = true
            ∧ (mkConn ad a b (applyPhase a u s).depDelay ev.delay).arrivalTime.isSome = true)
      ∧ ((mkConn ad a b (applyPhase a u s).depDelay ev.delay).departureTime.isSome = false
          ∨ (mkConn ad a b (applyPhase a u s).depDelay ev.delay).arrivalTime.isSome = false →
          (walkStep ups ad a b u s).2 = .skip))
    ∧ (u'.arrival = none → (walkStep ups ad a b u s).2 = .skip) := by
  constructor
  · intro ev hev
    have hstep2 : (walkStep ups ad a b u s).2
        = connOut (mkConn ad a b (applyPhase a u s).depDelay ev.delay) := by
      simp [walkStep, h1, ← h2, hev]
    refine ⟨by simp [walkStep, h1, ← h2, hev], ?_, ?_⟩
    · rw [hstep2]
      exact connOut_eq_conn_iff _
    · intro h
      rw [hstep2]
      exact connOut_skip _ h
  · intro hev
    simp [walkStep, h1, ← h2, hev]

/-- C4, witness: the pre-applied arrival delay at a concrete input with
valid dates. -/
theorem C4_witness :
    (walkStep [exObsBarr] (some 0) exA exB exObsBarr ⟨0, 0, 0⟩).2
      = .conn (mkConn (some 0) exA exB 0 60) :=
  ((C4_amended [exObsBarr] (some 0) exA exB exObsBarr exObsBarr ⟨0, 0, 0⟩ rfl rfl).1
      ⟨60⟩ rfl).2.1.mpr ⟨by decide, by decide⟩

/-- C5, counterexample.  The claim says that for an update whose first
observation has only a departure delay, the first matching hop has exactly
that departure delay and zero arrival delay.  With stops A, B, C and
observations [A: departure +120, B: arrival +60], the first hop matches A and
resets the arrival delay to 0, but the lookahead then pre-applies the next
observation's arrival delay: the emitted hop A→B carries (120, 60), not
(120, 0). -/
theorem C5_counterexample :
    ((runWalk (some 0) [exA, exB, exC] [exObsAdep, exObsBarr]).1)[0]?.bind delaysOf
      = some (120, 60)
    ∧ (60 : Int) ≠ 0 := ⟨rfl, by decide⟩

/-- C5, amended.  The application rules hold exactly as claimed (both present
⇒ both taken; departure-only ⇒ arrival resets to 0; arrival-only ⇒ departure
resets to 0; the cursor advances by one), and the first matching hop of a
departure-only first observation is emitted with (that delay, 0) — provided
the lookahead does not fire for that hop, i.e. the following observation does
not name the immediately next static stop, *and* the two dates of the built
connection are valid; when a date is invalid (e.g. a negative observed delay
concatenated onto the seconds string) `toISOString` throws and the per-hop
`catch` skips the hop instead. -/
theorem C5_amended :
    (∀ (a : StopTime) (u : StopTimeUpdate) (s : WalkState), a.stop_id = u.stop_id →
      (applyPhase a u s).idx = s.idx + 1
      ∧ (∀ d r, u.departure = some d → u.arrival = some r →
          (applyPhase a u s).depDelay = d.delay ∧ (applyPhase a u s).arrDelay = r.delay)
      ∧ (∀ d, u.departure = some d → u.arrival = none →
          (applyPhase a u s).depDelay = d.delay ∧ (applyPhase a u s).arrDelay = 0)
      ∧ (∀ r, u.departure = none → u.arrival = some r →
          (applyPhase a u s).depDelay = 0 ∧ (applyPhase a u s).arrDelay = r.delay))
    ∧ (∀ (ups : List StopTimeUpdate) (ad : Option Int) (a b : StopTime) (s : WalkState)
        (u : StopTimeUpdate) (d : StopTimeEvent),
        ups[s.idx]? = some u → a.stop_id = u.stop_id →
        u.departure = some d → u.arrival = none →
        (∀ u', ups[s.idx + 1]? = some u' → b.stop_id ≠ u'.stop_id) →
        ((walkStep ups ad a b u s).2 = .conn (mkConn ad a b d.delay 0)
          ↔ (mkConn ad a b d.delay 0).departureTime.isSome = true
            ∧ (mkConn ad a b d.delay 0).arrivalTime.isSome = true)
        ∧ ((mkConn ad a b d.delay 0).departureTime.isSome = false
            ∨ (mkConn ad a b d.delay 0).arrivalTime.isSome = false →
            (walkStep ups ad a b u s).2 = .skip)) := by
  constructor
  · intro a u s ha
    refine ⟨applyPhase_idx a u s ▸ by simp [ha], ?_, ?_, ?_⟩
    · intro d r hd hr
      simp [applyPhase, ha, hd, hr]
    · intro d hd hr
      simp [applyPhase, ha, hd, hr]
    · intro r hd hr
      simp [applyPhase, ha, hd, hr]
  · intro ups ad a b s u d hu ha hdep harr hnola
    have hs1 : applyPhase a u s = ⟨s.idx + 1, d.delay, 0⟩ := by
      simp [applyPhase, ha, hdep, harr]
    have hstep2 : (walkStep ups ad a b u s).2 = connOut (mkConn ad a b d.delay 0) := by
      simp only [walkStep, hs1]
      cases hg : ups[s.idx + 1]? with
      | none => rfl
      | some u' =>
        have hne := hnola u' hg
        simp [hne]
    rw [hstep2]
    exact ⟨connOut_eq_conn_iff _, fun h => connOut_skip _ h⟩

/-- C5, witness: a departure-only first observation at a concrete input with
valid dates. -/
theorem C5_witness :
    (walkStep [exObsAdep] (some 0) exA exB exObsAdep ⟨0, 0, 0⟩).2
      = .conn (mkConn (some 0) exA exB 120 0) :=
  ((C5_amended).2 [exObsAdep] (some 0) exA exB ⟨0, 0, 0⟩ exObsAdep ⟨120⟩ rfl rfl rfl rfl
    (by intro u' h; cases h)).1.mpr ⟨by decide, by decide⟩

/-- C6, counterexample.  The claim says an unset/empty pickup code yields an
absent `pickupType`.  `resolveScheduleRelationship` uses JavaScript loose
equality `value == 0`, and `"" == 0` is true, so a present-but-empty
`pickup_type` field yields `'gtfs:Regular'`: the emitted hop from a stop with
an empty pickup code carries `gtfs:Regular`, not an absent value. -/
theorem C6_counterexample :
    ((runWalk (some 0) [exA6, exB] [exObsAdep]).1)[0]?.bind typesOf
      = some (some "gtfs:Regular".toList, some "gtfs:Regular".toList)
    ∧ resolveScheduleRelationship (some []) ≠ none := ⟨rfl, by decide⟩

/-- C6, amended.  Every emitted hop resolves `pickupType` from the departure
stop-time's pickup code and `dropOffType` from the arrival stop-time's
drop-off code, with the mapping: a value loosely equal to 0 (the string "0",
but also the empty string, which JavaScript coerces to 0) yields
`gtfs:Regular`, a value loosely equal to 1 yields `gtfs:NotAvailable`, and a
missing field or any other value yields an absent result. -/
theorem C6_amended :
    (∀ (ups : List StopTimeUpdate) (ad : Option Int) (pairs : List (StopTime × StopTime))
        (s : WalkState) (k : Nat) (c : Conn),
        ((runWalkAux ups ad pairs s).1)[k]? = some (.conn c) →
        ∃ a b, pairs[k]? = some (a, b)
          ∧ c.pickupType = resolveScheduleRelationship a.pickup_type
          ∧ c.dropOffType = resolveScheduleRelationship b.drop_off_type)
    ∧ resolveScheduleRelationship (some "0".toList) = some "gtfs:Regular".toList
    ∧ resolveScheduleRelationship (some "1".toList) = some "gtfs:NotAvailable".toList
    ∧ resolveScheduleRelationship none = none
    ∧ resolveScheduleRelationship (some []) = some "gtfs:Regular".toList
    ∧ (∀ v : Str, jsToNumber v ≠ some 0 → jsToNumber v ≠ some 1 →
        resolveScheduleRelationship (some v) = none) := by
  refine ⟨?_, rfl, rfl, rfl, rfl, ?_⟩
  · intro ups ad pairs s k c h
    obtain ⟨a, b, dep, arr, hp, hc⟩ := runWalkAux_get_conn ups ad pairs s k c h
    exact ⟨a, b, hp, by rw [hc]; rfl, by rw [hc]; rfl⟩
  · intro v h0 h1
    simp only [resolveScheduleRelationship, jsLooseEqNum]
    rw [if_neg (by simpa using h0), if_neg (by simpa using h1)]

/-- C6, witness for the amended theorem at a concrete input. -/
theorem C6_witness :
    ∃ a b, (pairsOf [exA6, exB])[0]? = some (a, b)
      ∧ (mkConn (some 0) exA6 exB 120 0).pickupType
          = resolveScheduleRelationship a.pickup_type
      ∧ (mkConn (some 0) exA6 exB 120 0).dropOffType
          = resolveScheduleRelationship b.drop_off_type :=
  (C6_amended).1 [exObsAdep] (some 0) (pairsOf [exA6, exB]) ⟨0, 0, 0⟩ 0
    (mkConn (some 0) exA6 exB 120 0) rfl

/-- C9, confirmed.  (i) An entity whose trip id has no match in the static
trip index yields the non-fatal `unknownTrip` outcome (console log + `return`)
and the surrounding entities are processed exactly as without it.  (ii) A
per-hop failure is caught by the per-hop `catch`: an iteration always yields
an outcome (`conn` or `skip`) and the walk continues with the remaining hops
from the post-iteration state — a skipped hop never truncates the walk. -/
theorem C9_confirmed :
    (∀ (idx : StaticIndexes) (e : FeedEntity), idx.trips e.trip_id = none →
      processEntity idx e = .unknownTrip
      ∧ ∀ es₁ es₂, processFeed idx (es₁ ++ e :: es₂)
          = processFeed idx es₁ ++ .unknownTrip :: processFeed idx es₂)
    ∧ (∀ (ups : List StopTimeUpdate) (ad : Option Int) (a b : StopTime)
        (pairs : List (StopTime × StopTime)) (s : WalkState) (u : StopTimeUpdate),
        ups[s.idx]? = some u →
        (runWalkAux ups ad ((a, b) :: pairs) s).1
          = (walkStep ups ad a b u s).2
              :: (runWalkAux ups ad pairs (walkStep ups ad a b u s).1).1) := by
  constructor
  · intro idx e h
    have he : processEntity idx e = .unknownTrip := by
      simp [processEntity, h]
    refine ⟨he, ?_⟩
    intro es₁ es₂
    simp [processFeed, he]
  · intro ups ad a b pairs s u hu
    simp only [runWalkAux, hu]

/-- C9, witness: concrete unknown-trip skip and a concrete skipped hop
followed by a further emitted hop. -/
theorem C9_witness :
    processEntity ⟨fun _ => none, fun _ => none⟩ ⟨"T1".toList, 0, "08:00:00".toList, []⟩
      = .unknownTrip
    ∧ (runWalkAux [exObsBdep] (some 0) ((exA, exB) :: [(exB, exC)]) ⟨0, 0, 0⟩).1
        = (walkStep [exObsBdep] (some 0) exA exB exObsBdep ⟨0, 0, 0⟩).2
            :: (runWalkAux [exObsBdep] (some 0) [(exB, exC)]
                  (walkStep [exObsBdep] (some 0) exA exB exObsBdep ⟨0, 0, 0⟩).1).1 :=
  ⟨(C9_confirmed.1 ⟨fun _ => none, fun _ => none⟩ ⟨"T1".toList, 0, "08:00:00".toList, []⟩ rfl).1,
    C9_confirmed.2 [exObsBdep] (some 0) exA exB [(exB, exC)] ⟨0, 0, 0⟩ exObsBdep rfl⟩

/-- C10, counterexample.  The claim says all remaining hops keep (are walked
with) the delay values in effect before the unmatched observation.  With held
delays `(-5, 7)` — e.g. after an early departure was applied — and an
observation naming the absent stop Z, the seconds string becomes
`"00" + (-5) = "00-5"`, `ToNumber` gives `NaN`, the `Date` is invalid,
`toISOString()` throws and *every* remaining hop is skipped by the per-hop
`catch` instead of being emitted with those delays; the cursor still never
moves. -/
theorem C10_counterexample :
    (runWalkAux [⟨"Z".toList, some ⟨99⟩, none⟩] (some 0) (pairsOf [exA, exB, exC])
        ⟨0, -5, 7⟩).1 = [.skip, .skip]
    ∧ (runWalkAux [⟨"Z".toList, some ⟨99⟩, none⟩] (some 0) (pairsOf [exA, exB, exC])
        ⟨0, -5, 7⟩).2 = ⟨0, -5, 7⟩ := ⟨rfl, rfl⟩

/-- C10, amended.  The cursor advances only on an exact (`===`) match of
the current static stop id with the observation's stop id, and if the
cursor's observation names a stop id that occurs nowhere at or after the
current position, the walk leaves the cursor — and hence every later
observation — and the running delays untouched, and attempts every remaining
hop with exactly those delay values: each hop is emitted with them when the
two dates it yields are valid, and skipped by the per-hop `catch`
(`toISOString` on an Invalid Date) otherwise. -/
theorem C10_amended :
    (∀ (ups : List StopTimeUpdate) (ad : Option Int) (a b : StopTime)
        (u : StopTimeUpdate) (s : WalkState),
        ((walkStep ups ad a b u s).1).idx ≠ s.idx →
        a.stop_id = u.stop_id ∧ ((walkStep ups ad a b u s).1).idx = s.idx + 1)
    ∧ (∀ (ups : List StopTimeUpdate) (ad : Option Int)
        (pairs : List (StopTime × StopTime)) (s : WalkState) (u : StopTimeUpdate),
        ups[s.idx]? = some u →
        (∀ p ∈ pairs, p.1.stop_id ≠ u.stop_id ∧ p.2.stop_id ≠ u.stop_id) →
        runWalkAux ups ad pairs s
          = (pairs.map (fun p => connOut (mkConn ad p.1 p.2 s.depDelay s.arrDelay)), s)) := by
  constructor
  · intro ups ad a b u s h
    rw [walkStep_idx, applyPhase_idx] at h ⊢
    by_cases ha : a.stop_id = u.stop_id
    · exact ⟨ha, by simp [ha]⟩
    · simp [ha] at h
  · intro ups ad pairs
    induction pairs with
    | nil => intro s u hu hp; rfl
    | cons p rest ih =>
      intro s u hu hp
      obtain ⟨a, b⟩ := p
      have hna : a.stop_id ≠ u.stop_id := (hp (a, b) (by simp)).1
      have hnb : b.stop_id ≠ u.stop_id := (hp (a, b) (by simp)).2
      have hs1 : applyPhase a u s = s := by simp [applyPhase, hna]
      have hstep : walkStep ups ad a b u s
          = (s, connOut (mkConn ad a b s.depDelay s.arrDelay)) := by
        simp only [walkStep, hs1, hu, hnb, if_false]
      simp only [runWalkAux, hu, hstep, List.map_cons]
      rw [ih s u hu (fun q hq => hp q (by simp [hq]))]

/-- C10, witness: an observation naming an absent stop at a concrete input
whose held delays yield valid dates, so every remaining hop is emitted with
them. -/
theorem C10_witness :
    runWalkAux [⟨"Z".toList, some ⟨99⟩, none⟩] (some 0) (pairsOf [exA, exB, exC]) ⟨0, 5, 7⟩
      = ([.conn (mkConn (some 0) exA exB 5 7), .conn (mkConn (some 0) exB exC 5 7)],
          ⟨0, 5, 7⟩) :=
  (C10_amended.2 [⟨"Z".toList, some ⟨99⟩, none⟩] (some 0) (pairsOf [exA, exB, exC])
    ⟨0, 5, 7⟩ ⟨"Z".toList, some ⟨99⟩, none⟩ rfl (by decide)).trans (by decide)

namespace GtfsIndex

open JsPrim

/-! ### Text-file model

A GTFS file is a list of lines (`List Char` each, no newline characters); its
first line is the CSV header.  Fields hold no quoted delimiters in this model
(the amended consistency claim assumes as much; `fast-csv` and the naive
`split(',')` of `grepGtfsFile` agree exactly on that domain). -/

/-- A CSV field / a text line. -/
abbrev Field := List Char

/-- A parsed record: one value per header position; `none` is a missing
column (`undefined` in `grepGtfsFile`'s `obj[headers[j]] = d[j]`). -/
abbrev Rec := List (Option Field)

/-- A character the code strips: double quote, CR, LF. -/
def isBadCh (c : Char) : Bool := c = '"' || c = Char.ofNat 13 || c = Char.ofNat 10

/-- `replace(/[\n\r"]/g, "")` (GtfsIndex.js lines 213 and 309). -/
def stripBad (l : Field) : Field :=
  l.filter (fun c => !isBadCh c)

/-- `String.prototype.trim` restricted to blanks. -/
def trimField (f : Field) : Field :=
  ((f.dropWhile isSpaceCh).reverse.dropWhile isSpaceCh).reverse

/-- Join fields with commas: the raw text of a CSV row. -/
def lineOf (r : List Field) : Field := List.intercalate [','] r

/-- Split a raw line at commas (both `split(',')` in `grepGtfsFile` and the
quote-free fragment of `fast-csv`'s row parser). -/
def splitComma (l : Field) : List Field := l.splitOn ','

/-- Does `pat` occur at the head of `l`? -/
def leadsWith : Field → Field → Bool
  | [], _ => true
  | _ :: _, [] => false
  | a :: pat, b :: l => a = b && leadsWith pat l

/-- Substring occurrence of `pat` in a line — a text-level notion used to
phrase hypotheses and lemmas.  (The `grep` process itself is modeled by
`breLineMatch`/`grepRun` below, which treat the argument as a basic regular
expression; for a pattern free of BRE metacharacters the two coincide,
`grepRun_literal`.) -/
def hasRun (pat : Field) : Field → Bool
  | [] => leadsWith pat []
  | l@(_ :: t) => leadsWith pat l || hasRun pat t

/-- Position of a field name in a header list (`Array.prototype.indexOf`,
`none` for JavaScript's `-1`). -/
def fieldIdx (name : Field) : List Field → Option Nat
  | [] => none
  | h :: hs => if h = name then some 0 else (fieldIdx name hs).map (· + 1)

/-- Value of a record at a header position: `undefined` when the position is
out of range or holds no value. -/
def recGetIx (r : Rec) (i? : Option Nat) : Option Field :=
  match i? with
  | none => none
  | some i => (r[i]?).getD none

/-- Three-way comparison on naturals. -/
def cmpNat (a b : Nat) : Ordering :=
  if a < b then .lt else if b < a then .gt else .eq

/-- Three-way comparison on integers. -/
def cmpInt (a b : Int) : Ordering :=
  if a < b then .lt else if b < a then .gt else .eq

/-- Lexicographic byte comparison of two character lists (C-locale `sort`). -/
def cmpChars : Field → Field → Ordering
  | [], [] => .eq
  | [], _ :: _ => .lt
  | _ :: _, [] => .gt
  | a :: x, b :: y => (cmpNat a.toNat b.toNat).then (cmpChars x y)

/-- GNU `sort -d`: only blanks and alphanumeric characters are compared
(ASCII fragment). -/
def isAlnumBlank (c : Char) : Bool :=
  isDigitCh c || (97 ≤ c.toNat && c.toNat ≤ 122) || (65 ≤ c.toNat && c.toNat ≤ 90)
    || c.toNat = 32 || c.toNat = 9

/-- The dictionary-order key of a string under `sort -d`. -/
def dictF (f : Field) : Field := f.filter isAlnumBlank

/-- GNU `sort -n`'s numeric value of a string key: optional leading blanks
and minus sign, then the leading digit run (no digits counts as 0). -/
def gnuNumValS (s : Field) : Int :=
  match s.dropWhile isSpaceCh with
  | [] => 0
  | c :: rest =>
    if c = '-' then -(natOfDigits (rest.takeWhile isDigitCh) : Int)
    else (natOfDigits ((c :: rest).takeWhile isDigitCh) : Int)

/-- GNU `sort -n`'s numeric value of a key (a missing key counts as 0). -/
def gnuNumVal (f : Option Field) : Int :=
  match f with
  | none => 0
  | some s => gnuNumValS s

/-- The comparator of `sortStopTimes` (GtfsIndex.js lines 216-220):
`sort -t , -k <ti>d,<ti> -k <ss>n,<ss>`, i.e. dictionary order on the
`trip_id` field, then numeric order on the `stop_sequence` field, then GNU
sort's last-resort whole-line byte comparison.  `ti`/`ss` are 0-based here
(the shell command passes them 1-based). -/
def fullCmp (ti ss : Nat) (x y : Field) : Ordering :=
  (cmpChars (dictF ((splitComma x)[ti]?.getD [])) (dictF ((splitComma y)[ti]?.getD []))).then
    ((cmpInt (gnuNumVal (splitComma x)[ss]?) (gnuNumVal (splitComma y)[ss]?)).then
      (cmpChars x y))

/-- Boolean `≤` for the full-build sort. -/
def fullLe (ti ss : Nat) (x y : Field) : Bool := fullCmp ti ss x y ≠ Ordering.gt

/-- Stable insertion of `a` into `l`: `a` goes before the first element it
compares `≤` to. -/
def ordInsert (le : α → α → Bool) (a : α) : List α → List α
  | [] => [a]
  | b :: l => if le a b then a :: b :: l else b :: ordInsert le a l

/-- Stable sort by a boolean `≤` — the model of both GNU `sort` (a stable
merge sort) and V8's `Array.prototype.sort` (TimSort, stable); for a
consistent comparator all stable sorts agree. -/
def insSort (le : α → α → Bool) : List α → List α
  | [] => []
  | a :: l => ordInsert le a (insSort le l)

/-- `getGtfsHeaders` (GtfsIndex.js lines 212-214): `head -1`, strip
quotes/CR, split at commas, trim each header. -/
def getGtfsHeaders (lines : List Field) : List Field :=
  (splitComma (stripBad (lines.headD []))).map trimField

/-- The header-then-sorted-rows file produced by `sortStopTimes`:
`{ head -n 1 ; tail -n +2 | sort ; }`. -/
def sortStopTimes (ti ss : Nat) (lines : List Field) : List Field :=
  match lines with
  | [] => []
  | hdr :: rows => hdr :: insSort (fullLe ti ss) rows

/-- Row-by-row parse against a header count: a row whose field count differs
is the malformed-row error that fails the stream. -/
def parseRows (nh : Nat) : List Field → Except Unit (List Rec)
  | [] => .ok []
  | l :: ls =>
    if (splitComma l).length = nh then
      (parseRows nh ls).map (fun rs => (splitComma l).map some :: rs)
    else .error ()

/-- `fast-csv` parse of a whole file with `headers: true`, on the quote-free
domain: the first line gives the headers, every further line must split into
exactly one field per header (a column-count mismatch is the malformed-row
error that fails the stream). -/
def csvParseFile (lines : List Field) : Except Unit (List Field × List Rec) :=
  match lines with
  | [] => .ok ([], [])
  | hdr :: rows =>
    (parseRows (splitComma hdr).length rows).map (fun rs => (splitComma hdr, rs))

/-- The `trip_id` header name. -/
def tripIdF : Field := "trip_id".toList

/-- The `stop_sequence` header name. -/
def stopSeqF : Field := "stop_sequence".toList

/-- `data['trip_id']` of a parsed record. -/
def tripF (hs : List Field) (r : Rec) : Option Field := recGetIx r (fieldIdx tripIdF hs)

/-- One `map.set(...)` call of `processStopTimes`: key (`null` is `none`) and
the accumulated row group. -/
abbrev Flush := Option Field × List Rec

/-- The streaming group-by-trip scan of `processStopTimes` (GtfsIndex.js
lines 230-252): rows with a falsy `trip_id` are skipped; a row whose trip id
equals the current one (or when no current trip exists) is appended to the
current group; otherwise the current group is flushed and a new group starts;
`currentTripId` always becomes the row's trip id.  Returns the flushes in
order plus the final `(currentTripId, currentTrip)`. -/
def scanAux (hs : List Field) : List Rec → Option Field → List Rec →
    List Flush × Option Field × List Rec
  | [], cid, cur => ([], cid, cur)
  | r :: rest, cid, cur =>
    if isTruthy (tripF hs r) then
      if cid = none || cid = tripF hs r then
        scanAux hs rest (tripF hs r) (cur ++ [r])
      else
        ((cid, cur) :: (scanAux hs rest (tripF hs r) [r]).1,
          (scanAux hs rest (tripF hs r) [r]).2)
    else
      scanAux hs rest cid cur

/-- All `map.set` calls of `processStopTimes`, including the final flush of
the last scanned trip (lines 253-258; the service-day `fst` side index is
outside this model). -/
def processStopTimes (hs : List Field) (recs : List Rec) : List Flush :=
  (scanAux hs recs none []).1
    ++ [((scanAux hs recs none []).2.1, (scanAux hs recs none []).2.2)]

/-- `Map.get` after a sequence of `Map.set` calls: the last value set wins. -/
def flushLookup (fls : List Flush) (tid : Field) : Option (List Rec) :=
  ((fls.filter (fun f => f.1 = some tid)).getLast?).map (fun f => f.2)

/-- The full-build pipeline for one trip id: read the headers, locate the
`trip_id`/`stop_sequence` columns (a missing column makes the generated
`sort -k 0...` invalid and the `exec` reject), sort the rows, stream-parse
and group, and look the trip up (GtfsIndex.js lines 132-139 and 216-259). -/
def fullBuildStopTimes (lines : List Field) (tid : Field) :
    Except Unit (Option (List Rec)) :=
  let hs0 := getGtfsHeaders lines
  match fieldIdx tripIdF hs0, fieldIdx stopSeqF hs0 with
  | some ti, some ss =>
    (csvParseFile (sortStopTimes ti ss lines)).map
      (fun p => flushLookup (processStopTimes p.1 p.2) tid)
  | _, _ => .error ()

/-! #### The `grep` child process

`grepGtfsFile` runs `spawn('grep', [tripId, fileName])` (GtfsIndex.js line
290): the trip id is handed to `grep` verbatim, so `grep` interprets it as a
POSIX *basic regular expression* (and an id starting with `-` as a
command-line option).  The BRE constructs are modeled below: literals, `.`,
bracket expressions, `*` on a single-character atom, the `^`/`$` anchors and
backslash escapes of the special characters.  The remaining constructs
(`\( \)` groups, back-references, `\{ \}` intervals, POSIX classes and the
GNU operators) are outside the modeled subset and are conservatively mapped
to the error outcome of the process, as is a pattern `grep` itself rejects
(unclosed bracket, dangling backslash) or consumes as an option; every
theorem about `grepRun` carries hypotheses keeping the pattern inside the
exact region (`breLiteralCh`). -/

/-- An item of a bracket expression: a single character or a range. -/
inductive BrItem where
  | one (c : Char)
  | range (lo hi : Char)
  deriving DecidableEq, Repr

/-- A single-character BRE atom. -/
inductive BreAtom where
  | lit (c : Char)
  | dot
  | bracket (neg : Bool) (items : List BrItem)
  deriving DecidableEq, Repr

/-- One BRE piece: an atom, possibly starred. -/
structure BrePiece where
  atom : BreAtom
  starred : Bool
  deriving DecidableEq, Repr

/-- A parsed group-free BRE: optional `^` anchor, pieces, optional `$`
anchor. -/
structure BrePat where
  anchorL : Bool
  pieces : List BrePiece
  anchorR : Bool
  deriving DecidableEq, Repr

/-- Does an atom accept a character? -/
def atomTest : BreAtom → Char → Bool
  | .lit a, c => a = c
  | .dot, _ => true
  | .bracket neg items, c =>
    let inSet := items.any (fun it =>
      match it with
      | .one a => a = c
      | .range lo hi => lo.toNat ≤ c.toNat && c.toNat ≤ hi.toNat)
    if neg then !inSet else inSet

/-- Match a piece list against `s`.  With `endA` set the pieces must consume
all of `s` (a `$` anchor), otherwise consuming a prefix suffices; a starred
atom consumes any number of characters it accepts.  Every recursive call
consumes a piece or a character, so the fuel `breLineMatch` passes
(pieces + characters + 1) is never exhausted. -/
def matchPieces : Nat → Bool → List BrePiece → List Char → Bool
  | 0, _, _, _ => false
  | _ + 1, endA, [], s => !endA || s.isEmpty
  | fuel + 1, endA, p :: ps, s =>
    if p.starred then
      matchPieces fuel endA ps s
        || (match s with
            | [] => false
            | c :: rest => atomTest p.atom c && matchPieces fuel endA (p :: ps) rest)
    else
      match s with
      | [] => false
      | c :: rest => atomTest p.atom c && matchPieces fuel endA ps rest

/-- `grep` prints a line when the BRE matches some substring: without a `^`
anchor the match may start at any suffix. -/
def breLineMatch (p : BrePat) (l : List Char) : Bool :=
  if p.anchorL then matchPieces (p.pieces.length + l.length + 1) p.anchorR p.pieces l
  else l.tails.any (matchPieces (p.pieces.length + l.length + 1) p.anchorR p.pieces)

/-- An unstarred literal piece. -/
def litPiece (c : Char) : BrePiece := ⟨.lit c, false⟩

/-- Parse the items of a bracket expression up to the closing `]` (an initial
literal `]` was consumed by the caller): ranges `a-b`, a trailing `-` as a
literal, `[:`/`[.`/`[=` classes outside the modeled subset, an unclosed
bracket a syntax error. -/
def parseBrack : List Char → List BrItem → Option (List BrItem × List Char)
  | [], _ => none
  | ']' :: rest, acc => some (acc.reverse, rest)
  | '[' :: ':' :: _, _ => none
  | '[' :: '.' :: _, _ => none
  | '[' :: '=' :: _, _ => none
  | a :: '-' :: b :: rest, acc =>
    if b = ']' then some ((BrItem.one '-' :: BrItem.one a :: acc).reverse, rest)
    else parseBrack rest (BrItem.range a b :: acc)
  | a :: rest, acc => parseBrack rest (BrItem.one a :: acc)

/-- Parse the body of a BRE into pieces (fuel-driven; the fuel passed by
`parseBre` always suffices).  A final `$` anchors the end; `\` escapes only
the special characters (a `\(`, `\{`, back-reference or GNU operator is
outside the modeled subset); a `*` with no preceding atom is the literal
`*`. -/
def parsePieces : Nat → List Char → List BrePiece → Option (List BrePiece × Bool)
  | 0, _, _ => none
  | _ + 1, [], acc => some (acc.reverse, false)
  | fuel + 1, c :: rest, acc =>
    if c = '$' ∧ rest = [] then some (acc.reverse, true)
    else if c = '\\' then
      match rest with
      | [] => none
      | d :: rest' =>
        if d = '.' ∨ d = '[' ∨ d = ']' ∨ d = '*' ∨ d = '^' ∨ d = '$' ∨ d = '\\' then
          parsePieces fuel rest' (litPiece d :: acc)
        else none
    else if c = '.' then parsePieces fuel rest (⟨.dot, false⟩ :: acc)
    else if c = '*' then
      match acc with
      | [] => parsePieces fuel rest [litPiece '*']
      | p :: t => parsePieces fuel rest (⟨p.atom, true⟩ :: t)
    else if c = '[' then
      let neg := rest.head? = some '^'
      let r1 := if neg then rest.tail else rest
      let first0 := r1.head? = some ']'
      let r2 := if first0 then r1.tail else r1
      let acc0 := if first0 then [BrItem.one ']'] else []
      match parseBrack r2 acc0 with
      | none => none
      | some (items, r3) => parsePieces fuel r3 (⟨.bracket neg items, false⟩ :: acc)
    else parsePieces fuel rest (litPiece c :: acc)

/-- Parse a BRE: a leading `^` anchors the start; `none` for a pattern
outside the modeled subset or with a syntax error. -/
def parseBre (pat : List Char) : Option BrePat :=
  if pat.head? = some '^' then
    (parsePieces (pat.tail.length + 1) pat.tail []).map (fun pr => ⟨true, pr.1, pr.2⟩)
  else
    (parsePieces (pat.length + 1) pat []).map (fun pr => ⟨false, pr.1, pr.2⟩)

/-- A character `grep` treats literally wherever it occurs in a pattern. -/
def breLiteralCh (c : Char) : Bool :=
  !(c = '.' || c = '[' || c = '\\' || c = '*' || c = '^' || c = '$')

/-- The outcome of `spawn('grep', [pat, file])` on the modeled domain: an
argument starting with `-` is consumed by `grep`'s option parser (and
`grepGtfsFile` turns the resulting stderr output into a rejection), a pattern
outside the modeled BRE subset or with a syntax error is likewise mapped to
the error outcome, and otherwise the matching lines (header included) are
returned in file order. -/
def grepRun (pat : Field) (lines : List Field) : Except Unit (List Field) :=
  if pat.head? = some '-' then .error ()
  else
    match parseBre pat with
    | none => .error ()
    | some p => .ok (lines.filter (breLineMatch p))

/-- `grepGtfsFile`'s row parser (GtfsIndex.js lines 307-314): strip
quotes/CR, split at commas, and take one value per header position
(`undefined` past the end). -/
def grepParse (hs : List Field) (l : Field) : Rec :=
  (List.range hs.length).map (fun j => (splitComma (stripBad l))[j]?)

/-- `parseInt(rec['stop_sequence'])` (`NaN` when missing or non-numeric). -/
def seqIntOf (ss? : Option Nat) (r : Rec) : Option Int :=
  (recGetIx r ss?).bind parseIntJs

/-- The sort comparator of `grepStopTimes` (lines 280-282), as a boolean `≤`:
`parseInt(a.stop_sequence) - parseInt(b.stop_sequence) ≤ 0`; a `NaN`
difference is treated as 0 by the ECMAScript sort. -/
def jsSeqLe (ss? : Option Nat) (a b : Rec) : Bool :=
  match seqIntOf ss? a, seqIntOf ss? b with
  | some x, some y => x ≤ y
  | _, _ => true

/-- The scoped-extraction pipeline for one trip id (GtfsIndex.js lines
276-285): run `grep` over the file (a failing process rejects), parse each
matched line against the `getGtfsHeaders` schema, and sort by
`parseInt(stop_sequence)`. -/
def grepStopTimes (lines : List Field) (tid : Field) : Except Unit (List Rec) :=
  let hs := getGtfsHeaders lines
  (grepRun tid lines).map (fun ls =>
    insSort (jsSeqLe (fieldIdx stopSeqF hs)) (ls.map (grepParse hs)))

end GtfsIndex

namespace GtfsIndex

/-! ### Static index build and failure/cleanup control flow -/

/-- The extracted GTFS archive: each file either exists (its lines) or is
absent from the working directory. -/
structure GtfsFiles where
  stops : Option (List Field)
  routes : Option (List Field)
  trips : Option (List Field)
  stop_times : Option (List Field)
  calendar : Option (List Field)
  calendar_dates : Option (List Field)
  deriving DecidableEq

/-- `createIndex` (GtfsIndex.js lines 183-210): if the file does not exist
(`fs.existsSync`) nothing happens and the index stays empty — no error; if it
exists it is csv-parsed (a malformed row errors the stream) and every record
with a truthy key field is `set` into the index.  Returned as the ordered
list of `set` calls.  (The `tripsByRoute` side index is outside this model.) -/
def createIndex (file : Option (List Field)) (key : Field) :
    Except Unit (List (Field × Rec)) :=
  match file with
  | none => .ok []
  | some lines =>
    (csvParseFile lines).map (fun p =>
      p.2.filterMap (fun r =>
        match recGetIx r (fieldIdx key p.1) with
        | some (c :: v) => some (c :: v, r)
        | _ => none))

/-- `processCalendarDates` (GtfsIndex.js lines 261-274): unlike
`createIndex` there is NO `fs.existsSync` guard — `fs.createReadStream` on a
missing file raises `ENOENT` and the promise rejects.  On an existing file
every row contributes `(service_id, date, exception_type)`. -/
def processCalendarDates (file : Option (List Field)) :
    Except Unit (List (Option Field × Option Field × Option Field)) :=
  match file with
  | none => .error ()
  | some lines =>
    (csvParseFile lines).map (fun p =>
      p.2.map (fun r =>
        (recGetIx r (fieldIdx "service_id".toList p.1),
          recGetIx r (fieldIdx "date".toList p.1),
          recGetIx r (fieldIdx "exception_type".toList p.1))))

/-- `getGtfsHeaders` via `exec('head -1 ...')`: a missing file makes `head`
exit non-zero and the `exec` promise reject. -/
def getGtfsHeadersE (file : Option (List Field)) : Except Unit (List Field) :=
  match file with
  | none => .error ()
  | some lines => .ok (getGtfsHeaders lines)

/-- The whole stop-times stage of the full build: read the headers (fails if
the file is missing), locate the two sort columns (`indexOf + 1` feeds the
shell `sort -k`; a missing column yields `-k 0...`, an invalid key that makes
the `exec` reject), sort, stream-parse and group. -/
def stopTimesStage (file : Option (List Field)) : Except Unit (List Flush) := do
  let hs ← getGtfsHeadersE file
  match fieldIdx tripIdF hs, fieldIdx stopSeqF hs with
  | some ti, some ss =>
    (csvParseFile (sortStopTimes ti ss (file.getD []))).map
      (fun p => processStopTimes p.1 p.2)
  | _, _ => .error ()

/-- The result record of `createIndexes`. -/
structure BuildOut where
  stops : List (Field × Rec)
  routes : List (Field × Rec)
  trips : List (Field × Rec)
  stop_times : List Flush
  calendar : List (Field × Rec)
  calendarDates : List (Option Field × Option Field × Option Field)
  deriving DecidableEq

/-- `createIndexes` on the full-build (`MemStore`, no scoping set) path
(GtfsIndex.js lines 89-181): stop-times stage, the four `createIndex` calls,
and — only when deduction is requested — the calendar index and the
calendar-dates scan.  `Promise.all` fails iff any component fails; the
`Except` chain models that (the particular error surfaced may differ under
scheduling, the ok/error outcome does not). -/
def createIndexes (files : GtfsFiles) (deduce : Bool) : Except Unit BuildOut := do
  let st ← stopTimesStage files.stop_times
  let trips ← createIndex files.trips tripIdF
  let stops ← createIndex files.stops "stop_id".toList
  let routes ← createIndex files.routes "route_id".toList
  let calendar ← if deduce then createIndex files.calendar "service_id".toList else pure []
  let calDates ← if deduce then processCalendarDates files.calendar_dates else pure []
  pure { stops := stops, routes := routes, trips := trips, stop_times := st,
         calendar := calendar, calendarDates := calDates }

/-- On-disk effects of a run, in order. -/
inductive DiskEv where
  | cleanUpAux
  | extractAux
  | delRtIndexes
  | mkRtIndexes
  deriving DecidableEq, Repr

/-- The two store backends `createIndexes` recognises. -/
inductive Store where
  | MemStore
  | LevelStore
  deriving DecidableEq, Repr

/-- `createIndexes` with its disk effects: the LevelStore branch deletes and
recreates `.rt_indexes` (lines 142-143) after the headers are read; the
`await this.cleanUp()` of line 169 runs only after `Promise.all` succeeded —
a failing build returns without any cleanup, and nothing ever deletes
`.rt_indexes` at the end of a run. -/
def createIndexesRun (files : GtfsFiles) (store : Store) (deduce : Bool) :
    Except Unit BuildOut × List DiskEv :=
  match getGtfsHeadersE files.stop_times with
  | .error _ => (.error (), [])
  | .ok _ =>
    let pre := if store = Store.LevelStore then [DiskEv.delRtIndexes, DiskEv.mkRtIndexes] else []
    match createIndexes files deduce with
    | .ok b => (.ok b, pre ++ [DiskEv.cleanUpAux])
    | .error _ => (.error (), pre)

/-- `getIndexes` (GtfsIndex.js lines 21-50).  The `try` block runs the
initial `cleanUp`, the fetch/unzip stage, and then calls
`resolve(this.createIndexes(...))`: a rejection *inside* `createIndexes`
happens after `resolve` was called, so the `catch { await cleanUp(); reject }`
never runs for it.  A fetch/unzip failure is caught and does clean up (the
`unzip` error handler and the `catch`, both `cleanUp`). -/
def getIndexesRun (fetchOk : Bool) (files : GtfsFiles) (store : Store) (deduce : Bool) :
    Except Unit BuildOut × List DiskEv :=
  match fetchOk with
  | true =>
    ((createIndexesRun files store deduce).1,
      DiskEv.cleanUpAux :: DiskEv.extractAux :: (createIndexesRun files store deduce).2)
  | false =>
    (.error (), [DiskEv.cleanUpAux, DiskEv.cleanUpAux])

/-- Is the private working directory present after the events (absent
initially; `extract` creates it, `cleanUp` deletes it)? -/
def auxPresent (evs : List DiskEv) : Bool :=
  evs.foldl (fun st e =>
    match e with
    | DiskEv.cleanUpAux => false
    | DiskEv.extractAux => true
    | _ => st) false

/-- Is the LevelStore backing directory present after the events? -/
def rtPresent (evs : List DiskEv) : Bool :=
  evs.foldl (fun st e =>
    match e with
    | DiskEv.delRtIndexes => false
    | DiskEv.mkRtIndexes => true
    | _ => st) false

/-! ### Concrete files for the index-build claims -/

/-- A small `stop_times.txt`: trip `12` pollutes `grep 1`. -/
def exStFile : List Field :=
  ["trip_id,stop_sequence,stop_id".toList,
   "12,1,X".toList,
   "1,1,A".toList,
   "1,2,B".toList]

/-- A minimal well-formed `stops.txt`. -/
def exStopsFile : List Field := ["stop_id,stop_name".toList, "A,Alpha".toList]

/-- A minimal well-formed `routes.txt`. -/
def exRoutesFile : List Field := ["route_id,route_short_name".toList, "R1,r".toList]

/-- A minimal well-formed `trips.txt`. -/
def exTripsFile : List Field := ["trip_id,route_id".toList, "1,R1".toList]

/-- A minimal well-formed `calendar.txt`. -/
def exCalFile : List Field := ["service_id,monday".toList, "S1,1".toList]

/-- All files present and well-formed except `calendar_dates.txt`, which is
missing. -/
def exFilesNoCalDates : GtfsFiles :=
  { stops := some exStopsFile, routes := some exRoutesFile, trips := some exTripsFile,
    stop_times := some exStFile, calendar := some exCalFile, calendar_dates := none }

end GtfsIndex

open GtfsIndex

/-- C2, counterexample.  The claim says full build and scoped extraction
yield identical StopTime lists for any trip id indexed by both.  `grep`
matches the trip id (here a metacharacter-free pattern, hence a plain
substring) anywhere in a line, so with trips `1` and `12` in the file, the
scoped extraction of trip `1` also pulls trip `12`'s row (and sorts it first,
stably, on equal sequence numbers), while the full build stores exactly trip
`1`'s two rows. -/
theorem C2_counterexample :
    fullBuildStopTimes exStFile "1".toList
      = .ok (some [[some "1".toList, some "1".toList, some "A".toList],
                   [some "1".toList, some "2".toList, some "B".toList]])
    ∧ grepStopTimes exStFile "1".toList
      = .ok [[some "12".toList, some "1".toList, some "X".toList],
             [some "1".toList, some "1".toList, some "A".toList],
             [some "1".toList, some "2".toList, some "B".toList]]
    ∧ ([[some "12".toList, some "1".toList, some "X".toList],
        [some "1".toList, some "1".toList, some "A".toList],
        [some "1".toList, some "2".toList, some "B".toList]] : List Rec)
      ≠ [[some "1".toList, some "1".toList, some "A".toList],
         [some "1".toList, some "2".toList, some "B".toList]] :=
  ⟨rfl, rfl, by decide⟩

namespace GtfsIndex

/-- Did an `Except` computation succeed? -/
def okB : Except Unit α → Bool
  | .ok _ => true
  | .error _ => false

/-- Bind of a failed `Except` (simp helper). -/
theorem ebind_err (f : α → Except Unit β) :
    ((Except.error () : Except Unit α) >>= f) = .error () := rfl

/-- Bind of a successful `Except` (simp helper). -/
theorem ebind_ok (a : α) (f : α → Except Unit β) :
    ((Except.ok a : Except Unit α) >>= f) = f a := rfl

/-- Map over a failed `Except` (simp helper). -/
theorem emap_err (f : α → β) :
    (f <$> (Except.error () : Except Unit α)) = .error () := rfl

/-- Map over a successful `Except` (simp helper). -/
theorem emap_ok (f : α → β) (a : α) :
    (f <$> (Except.ok a : Except Unit α)) = .ok (f a) := rfl

/-- The run's result is exactly `createIndexes`' result: when the headers
read fails, both are the (unit) error. -/
theorem createIndexesRun_fst (files : GtfsFiles) (store : Store) (deduce : Bool) :
    (createIndexesRun files store deduce).1 = createIndexes files deduce := by
  unfold createIndexesRun
  cases hh : getGtfsHeadersE files.stop_times with
  | error e =>
    cases e
    have : createIndexes files deduce = .error () := by
      simp [createIndexes, stopTimesStage, hh, ebind_err, ebind_ok, emap_err, emap_ok]
    rw [this]
  | ok hs =>
    cases hb : createIndexes files deduce with
    | ok b => simp [hb]
    | error e => cases e; simp [hb]

end GtfsIndex

open GtfsIndex

/-- C8, counterexample.  The claim says any failing index build deletes the
working directory and the LevelStore directory before the error surfaces.
`getIndexes` calls `resolve(this.createIndexes(...))`, so a rejection inside
the build occurs after `resolve` and the `catch { cleanUp }` never runs: on
the concrete failing build (missing `calendar_dates.txt` with deduction, all
other files fine, LevelStore backend) the error surfaces with the extracted
working directory still on disk and the freshly created `.rt_indexes`
directory never deleted. -/
theorem C8_counterexample :
    okB (getIndexesRun true exFilesNoCalDates Store.LevelStore true).1 = false
    ∧ auxPresent (getIndexesRun true exFilesNoCalDates Store.LevelStore true).2 = true
    ∧ rtPresent (getIndexesRun true exFilesNoCalDates Store.LevelStore true).2 = true :=
  ⟨rfl, rfl, rfl⟩

/-- C8, amended.  Cleanup-before-error holds only for the fetch/unzip stage:
a fetch failure is caught and deletes the working directory before the error
propagates.  A failure anywhere inside the index build surfaces with the
extracted working directory still present (the rejection happens after
`resolve`, bypassing the `catch` cleanup, and `createIndexes` only cleans up
after `Promise.all` succeeds); a successful build does delete the working
directory; and the LevelStore backing directory, once created, is never
deleted by the run at all — succeed or fail (only a later LevelStore build
deletes it at start). -/
theorem C8_amended (fetchOk : Bool) (files : GtfsFiles) (store : Store) (deduce : Bool) :
    (fetchOk = false →
      okB (getIndexesRun fetchOk files store deduce).1 = false
      ∧ auxPresent (getIndexesRun fetchOk files store deduce).2 = false)
    ∧ (okB (createIndexes files deduce) = false →
        okB (getIndexesRun true files store deduce).1 = false
        ∧ auxPresent (getIndexesRun true files store deduce).2 = true)
    ∧ (okB (createIndexes files deduce) = true →
        okB (getIndexesRun true files store deduce).1 = true
        ∧ auxPresent (getIndexesRun true files store deduce).2 = false)
    ∧ (okB (getGtfsHeadersE files.stop_times) = true →
        rtPresent (getIndexesRun true files Store.LevelStore deduce).2 = true) := by
  refine ⟨?_, ?_, ?_, ?_⟩
  · intro h
    subst h
    exact ⟨rfl, rfl⟩
  · intro h
    constructor
    · show okB (getIndexesRun true files store deduce).1 = false
      simp only [getIndexesRun, createIndexesRun_fst]
      exact h
    · simp only [getIndexesRun]
      unfold createIndexesRun
      cases hh : getGtfsHeadersE files.stop_times with
      | error e => rfl
      | ok hs =>
        cases hb : createIndexes files deduce with
        | ok b => rw [hb] at h; simp [okB] at h
        | error e => cases store <;> rfl
  · intro h
    constructor
    · show okB (getIndexesRun true files store deduce).1 = true
      simp only [getIndexesRun, createIndexesRun_fst]
      exact h
    · simp only [getIndexesRun]
      unfold createIndexesRun
      cases hh : getGtfsHeadersE files.stop_times with
      | error e =>
        cases e
        have hce : createIndexes files deduce = .error () := by
          simp [createIndexes, stopTimesStage, hh, ebind_err, ebind_ok, emap_err, emap_ok]
        rw [hce] at h
        simp [okB] at h
      | ok hs =>
        cases hb : createIndexes files deduce with
        | ok b => cases store <;> rfl
        | error e => rw [hb] at h; simp [okB] at h
  · intro h
    simp only [getIndexesRun]
    unfold createIndexesRun
    cases hh : getGtfsHeadersE files.stop_times with
    | error e => rw [hh] at h; simp [okB] at h
    | ok hs =>
      cases hb : createIndexes files deduce with
      | ok b => rfl
      | error e => rfl

/-- C8, witness: the amended theorem at the concrete failing-build input. -/
theorem C8_witness :
    okB (getIndexesRun true exFilesNoCalDates Store.MemStore true).1 = false
    ∧ auxPresent (getIndexesRun true exFilesNoCalDates Store.MemStore true).2 = true :=
  (C8_amended true exFilesNoCalDates Store.MemStore true).2.1 rfl

namespace GtfsIndex

/-! ### Generic facts about the stable insertion sort -/

/-- Inserting permutes. -/
theorem ordInsert_perm (le : α → α → Bool) (a : α) (l : List α) :
    (ordInsert le a l).Perm (a :: l) := by
  induction l with
  | nil => exact List.Perm.refl _
  | cons b t ih =>
    unfold ordInsert
    by_cases h : le a b
    · rw [if_pos h]
    · rw [if_neg h]
      exact (ih.cons b).trans (List.Perm.swap a b t)

/-- Sorting permutes. -/
theorem insSort_perm (le : α → α → Bool) (l : List α) :
    (insSort le l).Perm l := by
  induction l with
  | nil => exact List.Perm.refl _
  | cons a t ih => exact (ordInsert_perm le a (insSort le t)).trans (ih.cons a)

/-- Membership in a sorted list. -/
theorem mem_insSort (le : α → α → Bool) (l : List α) {x : α} (hx : x ∈ insSort le l) :
    x ∈ l := (insSort_perm le l).mem_iff.mp hx

/-- Inserting into a `le`-pairwise list keeps it pairwise, given totality of
`a` against the members and transitivity through `a`. -/
theorem pairwise_ordInsert (le : α → α → Bool) (a : α) (l : List α)
    (hl : List.Pairwise (fun x y => le x y = true) l)
    (htot : ∀ b ∈ l, le a b = true ∨ le b a = true)
    (htr : ∀ b ∈ l, ∀ c ∈ l, le a b = true → le b c = true → le a c = true) :
    List.Pairwise (fun x y => le x y = true) (ordInsert le a l) := by
  induction l with
  | nil => exact List.pairwise_singleton _ a
  | cons b t ih =>
    unfold ordInsert
    by_cases h : le a b
    · rw [if_pos h]
      refine List.Pairwise.cons ?_ hl
      intro x hx
      rcases List.mem_cons.mp hx with rfl | hx
      · exact h
      · exact htr b (by simp) x (by simp [hx]) h ((List.pairwise_cons.mp hl).1 x hx)
    · rw [if_neg h]
      have hba : le b a = true := by
        rcases htot b (by simp) with h1 | h1
        · exact absurd h1 h
        · exact h1
      refine List.Pairwise.cons ?_ ?_
      · intro x hx
        rcases List.mem_cons.mp ((ordInsert_perm le a t).mem_iff.mp hx) with rfl | hx
        · exact hba
        · exact (List.pairwise_cons.mp hl).1 x hx
      · exact ih (List.pairwise_cons.mp hl).2
          (fun c hc => htot c (by simp [hc]))
          (fun c hc d hd => htr c (by simp [hc]) d (by simp [hd]))

/-- The sorted list is pairwise `le`, given totality and transitivity on the
list's members. -/
theorem insSort_pairwise (le : α → α → Bool) (l : List α)
    (htot : ∀ a ∈ l, ∀ b ∈ l, le a b = true ∨ le b a = true)
    (htr : ∀ a ∈ l, ∀ b ∈ l, ∀ c ∈ l, le a b = true → le b c = true → le a c = true) :
    List.Pairwise (fun x y => le x y = true) (insSort le l) := by
  induction l with
  | nil => exact List.Pairwise.nil
  | cons a t ih =>
    refine pairwise_ordInsert le a (insSort le t)
      (ih (fun x hx y hy => htot x (by simp [hx]) y (by simp [hy]))
        (fun x hx y hy z hz => htr x (by simp [hx]) y (by simp [hy]) z (by simp [hz])))
      ?_ ?_
    · intro b hb
      exact htot a (by simp) b (by simp [mem_insSort le t hb])
    · intro b hb c hc
      exact htr a (by simp) b (by simp [mem_insSort le t hb]) c (by simp [mem_insSort le t hc])

/-- Sorting a mapped list is mapping the sorted list (the comparator only
looks through `f`). -/
theorem ordInsert_map (le : β → β → Bool) (f : α → β) (a : α) (l : List α) :
    ordInsert le (f a) (l.map f) = (ordInsert (fun x y => le (f x) (f y)) a l).map f := by
  induction l with
  | nil => rfl
  | cons b t ih =>
    simp only [List.map_cons, ordInsert]
    by_cases h : le (f a) (f b)
    · rw [if_pos h, if_pos h]; rfl
    · rw [if_neg h, if_neg h, List.map_cons, ih]

/-- Sorting commutes with mapping. -/
theorem insSort_map (le : β → β → Bool) (f : α → β) (l : List α) :
    insSort le (l.map f) = (insSort (fun x y => le (f x) (f y)) l).map f := by
  induction l with
  | nil => rfl
  | cons a t ih => simp only [List.map_cons, insSort, ih, ordInsert_map]

/-! ### Lawful three-way comparators -/

/-- The laws a three-way comparator needs for the sort arguments below. -/
structure IsCmp (f : α → α → Ordering) : Prop where
  swap : ∀ a b, f a b = (f b a).swap
  eq_congr : ∀ a b c, f a b = .eq → f a c = f b c
  lt_trans : ∀ a b c, f a b = .lt → f b c = .lt → f a c = .lt

/-- `Ordering.then` by cases on the first component. -/
theorem then_eq_lt (o p : Ordering) :
    o.then p = .lt ↔ o = .lt ∨ (o = .eq ∧ p = .lt) := by
  cases o <;> simp [Ordering.then]

/-- `Ordering.then` is `eq` iff both parts are. -/
theorem then_eq_eq (o p : Ordering) : o.then p = .eq ↔ o = .eq ∧ p = .eq := by
  cases o <;> simp [Ordering.then]

/-- `swap` distributes over `then`. -/
theorem then_swap (o p : Ordering) : (o.then p).swap = o.swap.then p.swap := by
  cases o <;> cases p <;> rfl

/-- Lexicographic combination of lawful comparators is lawful. -/
theorem isCmp_then {f g : α → α → Ordering} (hf : IsCmp f) (hg : IsCmp g) :
    IsCmp (fun a b => (f a b).then (g a b)) := by
  refine ⟨?_, ?_, ?_⟩
  · intro a b
    rw [hf.swap a b, hg.swap a b, then_swap]
  · intro a b c h
    obtain ⟨h1, h2⟩ := (then_eq_eq _ _).mp h
    rw [hf.eq_congr a b c h1, hg.eq_congr a b c h2]
  · intro a b c h1 h2
    rcases (then_eq_lt _ _).mp h1 with hab | ⟨hab, gab⟩ <;>
      rcases (then_eq_lt _ _).mp h2 with hbc | ⟨hbc, gbc⟩
    · exact (then_eq_lt _ _).mpr (Or.inl (hf.lt_trans a b c hab hbc))
    · refine (then_eq_lt _ _).mpr (Or.inl ?_)
      have hba : f b a = f c a := hf.eq_congr b c a hbc
      have : f a c = (f c a).swap := hf.swap a c
      rw [this, ← hba, ← hf.swap a b, hab]
    · refine (then_eq_lt _ _).mpr (Or.inl ?_)
      rw [hf.eq_congr a b c hab]
      exact hbc
    · refine (then_eq_lt _ _).mpr (Or.inr ⟨?_, ?_⟩)
      · have : f a c = f b c := hf.eq_congr a b c hab
        rw [this, hbc]
      · exact hg.lt_trans a b c gab gbc

/-- A comparator through a key function is lawful. -/
theorem isCmp_comap {f : β → β → Ordering} (hf : IsCmp f) (k : α → β) :
    IsCmp (fun a b => f (k a) (k b)) :=
  ⟨fun a b => hf.swap (k a) (k b),
    fun a b c h => hf.eq_congr (k a) (k b) (k c) h,
    fun a b c h1 h2 => hf.lt_trans (k a) (k b) (k c) h1 h2⟩

/-- `cmpNat` is lawful. -/
theorem isCmp_cmpNat : IsCmp cmpNat := by
  refine ⟨?_, ?_, ?_⟩
  · intro a b
    unfold cmpNat
    split_ifs <;> first | rfl | omega
  · intro a b c h
    unfold cmpNat at h ⊢
    split_ifs at h
    all_goals first
      | (have hab : a = b := (by omega); subst hab; rfl)
      | cases h
  · intro a b c h1 h2
    unfold cmpNat at h1 h2 ⊢
    have hab : a < b := by
      by_contra hc
      rw [if_neg hc] at h1
      split_ifs at h1 <;> cases h1
    have hbc : b < c := by
      by_contra hc
      rw [if_neg hc] at h2
      split_ifs at h2 <;> cases h2
    rw [if_pos (by omega)]

/-- `cmpInt` is lawful. -/
theorem isCmp_cmpInt : IsCmp cmpInt := by
  refine ⟨?_, ?_, ?_⟩
  · intro a b
    unfold cmpInt
    split_ifs <;> first | rfl | omega
  · intro a b c h
    unfold cmpInt at h ⊢
    split_ifs at h
    all_goals first
      | (have hab : a = b := (by omega); subst hab; rfl)
      | cases h
  · intro a b c h1 h2
    unfold cmpInt at h1 h2 ⊢
    have hab : a < b := by
      by_contra hc
      rw [if_neg hc] at h1
      split_ifs at h1 <;> cases h1
    have hbc : b < c := by
      by_contra hc
      rw [if_neg hc] at h2
      split_ifs at h2 <;> cases h2
    rw [if_pos (by omega)]

/-- `cmpChars` is lawful. -/
theorem isCmp_cmpChars : IsCmp cmpChars := by
  refine ⟨?_, ?_, ?_⟩
  · intro a
    induction a with
    | nil => intro b; cases b <;> rfl
    | cons x xs ih =>
      intro b
      cases b with
      | nil => rfl
      | cons y ys =>
        simp only [cmpChars, then_swap, isCmp_cmpNat.swap x.toNat y.toNat, ih ys]
  · intro a
    induction a with
    | nil =>
      intro b c h
      cases b with
      | nil => rfl
      | cons y ys => cases c <;> simp [cmpChars] at h ⊢
    | cons x xs ih =>
      intro b c h
      cases b with
      | nil => simp [cmpChars] at h
      | cons y ys =>
        simp only [cmpChars, then_eq_eq] at h
        obtain ⟨h1, h2⟩ := h
        cases c with
        | nil => rfl
        | cons z zs =>
          simp only [cmpChars, isCmp_cmpNat.eq_congr x.toNat y.toNat z.toNat h1,
            ih ys zs h2]
  · intro a
    induction a with
    | nil =>
      intro b c h1 h2
      cases b with
      | nil => cases h1
      | cons y ys =>
        cases c with
        | nil => simp [cmpChars] at h2
        | cons z zs => rfl
    | cons x xs ih =>
      intro b c h1 h2
      cases b with
      | nil => simp [cmpChars] at h1
      | cons y ys =>
        cases c with
        | nil => simp [cmpChars] at h2
        | cons z zs =>
          simp only [cmpChars, then_eq_lt] at h1 h2 ⊢
          rcases h1 with h1 | ⟨h1, h1'⟩ <;> rcases h2 with h2 | ⟨h2, h2'⟩
          · exact Or.inl (isCmp_cmpNat.lt_trans _ _ _ h1 h2)
          · refine Or.inl ?_
            have := isCmp_cmpNat.eq_congr y.toNat z.toNat x.toNat h2
            have hswap := isCmp_cmpNat.swap x.toNat z.toNat
            rw [hswap, ← this, ← isCmp_cmpNat.swap x.toNat y.toNat, h1]
          · exact Or.inl (by rw [isCmp_cmpNat.eq_congr x.toNat y.toNat z.toNat h1]; exact h2)
          · exact Or.inr ⟨by rw [isCmp_cmpNat.eq_congr x.toNat y.toNat z.toNat h1]; exact h2,
              ih ys zs h1' h2'⟩

/-- The full-build sort comparator is lawful. -/
theorem isCmp_fullCmp (ti ss : Nat) : IsCmp (fullCmp ti ss) :=
  isCmp_then (isCmp_comap isCmp_cmpChars _)
    (isCmp_then (isCmp_comap isCmp_cmpInt _) isCmp_cmpChars)

/-- A lawful comparator's `≤` is total. -/
theorem isCmp_le_total {f : α → α → Ordering} (hf : IsCmp f) (a b : α) :
    f a b ≠ .gt ∨ f b a ≠ .gt := by
  by_cases h : f a b = .gt
  · refine Or.inr ?_
    rw [hf.swap b a, h]
    simp [Ordering.swap]
  · exact Or.inl h

/-- A lawful comparator's `≤` is transitive. -/
theorem isCmp_le_trans {f : α → α → Ordering} (hf : IsCmp f) (a b c : α)
    (h1 : f a b ≠ .gt) (h2 : f b c ≠ .gt) : f a c ≠ .gt := by
  cases hab : f a b with
  | gt => exact absurd hab h1
  | eq => rw [hf.eq_congr a b c hab]; exact h2
  | lt =>
    cases hbc : f b c with
    | gt => exact absurd hbc h2
    | lt => rw [hf.lt_trans a b c hab hbc]; simp
    | eq =>
      have hba : f b a = f c a := hf.eq_congr b c a hbc
      have : f a c = (f c a).swap := hf.swap a c
      rw [this, ← hba, hf.swap b a, hab]
      simp [Ordering.swap]

end GtfsIndex

namespace GtfsIndex

open JsPrim

/-! ### Characterising the streaming group-by-trip scan -/

/-- The scan processes an appended list compositionally. -/
theorem scanAux_append (hs : List Field) (tid : Field) :
    ∀ (l1 l2 : List Rec) (cid : Option Field) (cur : List Rec),
      scanAux hs (l1 ++ l2) cid cur =
        ((scanAux hs l1 cid cur).1
            ++ (scanAux hs l2 (scanAux hs l1 cid cur).2.1 (scanAux hs l1 cid cur).2.2).1,
          (scanAux hs l2 (scanAux hs l1 cid cur).2.1 (scanAux hs l1 cid cur).2.2).2) := by
  intro l1
  induction l1 with
  | nil => intro l2 cid cur; rfl
  | cons r t ih =>
    intro l2 cid cur
    simp only [List.cons_append, scanAux]
    by_cases h1 : isTruthy (tripF hs r)
    · rw [if_pos h1, if_pos h1]
      by_cases h2 : (cid = none || cid = tripF hs r) = true
      · rw [if_pos h2, if_pos h2]
        simp only [List.append_eq]
        rw [ih]
      · rw [if_neg h2, if_neg h2]
        simp only [List.append_eq]
        rw [ih]
        simp
    · rw [if_neg h1, if_neg h1]
      simp only [List.append_eq]
      rw [ih]

/-- Over rows that never carry the trip id, neither the flushes nor the final
current-trip key mention it. -/
theorem scanAux_noTid (hs : List Field) (tid : Field) :
    ∀ (l : List Rec) (cid : Option Field) (cur : List Rec), cid ≠ some tid →
      (∀ r ∈ l, tripF hs r ≠ some tid) →
      (∀ f ∈ (scanAux hs l cid cur).1, f.1 ≠ some tid)
      ∧ (scanAux hs l cid cur).2.1 ≠ some tid := by
  intro l
  induction l with
  | nil => intro cid cur hcid _; exact ⟨fun f hf => absurd hf (by simp [scanAux]), hcid⟩
  | cons r t ih =>
    intro cid cur hcid hall
    have hr : tripF hs r ≠ some tid := hall r (by simp)
    have ht : ∀ x ∈ t, tripF hs x ≠ some tid := fun x hx => hall x (by simp [hx])
    simp only [scanAux]
    by_cases h1 : isTruthy (tripF hs r)
    · rw [if_pos h1]
      by_cases h2 : (cid = none || cid = tripF hs r) = true
      · rw [if_pos h2]
        exact ih (tripF hs r) (cur ++ [r]) hr ht
      · rw [if_neg h2]
        obtain ⟨ihf, ihc⟩ := ih (tripF hs r) [r] hr ht
        refine ⟨?_, ihc⟩
        intro f hf
        rcases List.mem_cons.mp hf with rfl | hf
        · exact hcid
        · exact ihf f hf
    · rw [if_neg h1]
      exact ih cid cur hcid ht

/-- If the final current-trip key is still `null`, the scan saw no usable row
and left the state untouched (so it started as `null`). -/
theorem scanAux_cid_none (hs : List Field) :
    ∀ (l : List Rec) (cid : Option Field) (cur : List Rec),
      (scanAux hs l cid cur).2.1 = none →
      (scanAux hs l cid cur).2 = (cid, cur) ∧ cid = none := by
  intro l
  induction l with
  | nil => intro cid cur h; exact ⟨rfl, h⟩
  | cons r t ih =>
    intro cid cur h
    simp only [scanAux] at h ⊢
    by_cases h1 : isTruthy (tripF hs r)
    · rw [if_pos h1] at h ⊢
      have htr : ∃ v, tripF hs r = some v := by
        cases hv : tripF hs r with
        | none => rw [hv] at h1; simp [isTruthy] at h1
        | some v => exact ⟨v, rfl⟩
      obtain ⟨v, hv⟩ := htr
      by_cases h2 : (cid = none || cid = tripF hs r) = true
      · rw [if_pos h2] at h ⊢
        obtain ⟨_, hcid⟩ := ih (tripF hs r) (cur ++ [r]) h
        rw [hv] at hcid
        cases hcid
      · rw [if_neg h2] at h ⊢
        obtain ⟨_, hcid⟩ := ih (tripF hs r) [r] h
        rw [hv] at hcid
        cases hcid
    · rw [if_neg h1] at h ⊢
      exact ih cid cur h

/-- Scanning further all-`tid` rows from the state `(some tid, cur)` only
extends the current group. -/
theorem scanAux_tidCont (hs : List Field) (tid : Field) :
    ∀ (R : List Rec) (cur : List Rec), (∀ r ∈ R, tripF hs r = some tid) → tid ≠ [] →
      scanAux hs R (some tid) cur = ([], some tid, cur ++ R) := by
  intro R
  induction R with
  | nil => intro cur _ _; simp [scanAux]
  | cons r t ih =>
    intro cur hall htid
    have hr : tripF hs r = some tid := hall r (by simp)
    simp only [scanAux]
    rw [if_pos (by simp [isTruthy, hr, htid]), if_pos (by simp [hr])]
    rw [hr, ih (cur ++ [r]) (fun x hx => hall x (by simp [hx])) htid]
    simp

/-- Scanning a nonempty all-`tid` run from a non-`tid` state: at most one
flush (the previous group), and the run becomes the current group. -/
theorem scanAux_tidRun (hs : List Field) (tid : Field) (R : List Rec)
    (cid : Option Field) (cur : List Rec) (hR : R ≠ [])
    (hall : ∀ r ∈ R, tripF hs r = some tid) (htid : tid ≠ [])
    (hcid : cid ≠ some tid) :
    scanAux hs R cid cur =
      (if cid = none then ([], some tid, cur ++ R) else ([(cid, cur)], some tid, R)) := by
  cases R with
  | nil => exact absurd rfl hR
  | cons r t =>
    have hr : tripF hs r = some tid := hall r (by simp)
    simp only [scanAux]
    rw [if_pos (by simp [isTruthy, hr, htid])]
    by_cases hn : cid = none
    · subst hn
      rw [if_pos (by simp), hr,
        scanAux_tidCont hs tid t (cur ++ [r]) (fun x hx => hall x (by simp [hx])) htid,
        if_pos rfl]
      simp
    · rw [if_neg (by simp [hn, hr]; intro hc; exact hcid (by rw [hc])), hr,
        scanAux_tidCont hs tid t [r] (fun x hx => hall x (by simp [hx])) htid,
        if_neg hn]
      simp

/-- Scanning non-`tid` rows from the state `(some tid, cur)`: among all
flushes (final one included), exactly one carries the key `some tid`, and its
group is `cur`. -/
theorem scanAux_post (hs : List Field) (tid : Field) :
    ∀ (l : List Rec) (cur : List Rec), (∀ r ∈ l, tripF hs r ≠ some tid) →
      ((scanAux hs l (some tid) cur).1
          ++ [((scanAux hs l (some tid) cur).2.1, (scanAux hs l (some tid) cur).2.2)]).filter
        (fun f => f.1 = some tid) = [(some tid, cur)] := by
  intro l
  induction l with
  | nil => intro cur _; simp [scanAux]
  | cons r t ih =>
    intro cur hall
    have hr : tripF hs r ≠ some tid := hall r (by simp)
    have ht : ∀ x ∈ t, tripF hs x ≠ some tid := fun x hx => hall x (by simp [hx])
    simp only [scanAux]
    by_cases h1 : isTruthy (tripF hs r)
    · rw [if_pos h1]
      have hcond : ¬((some tid = none || some tid = tripF hs r) = true) := by
        simp
        intro hc
        exact hr (by rw [hc])
      rw [if_neg hcond]
      obtain ⟨hflushes, hfinal⟩ := scanAux_noTid hs tid t (tripF hs r) [r] hr ht
      simp only [List.cons_append, List.filter_cons]
      rw [if_pos (by simp)]
      congr 1
      rw [List.filter_eq_nil_iff]
      intro f hf
      rcases List.mem_append.mp hf with hf | hf
      · simpa using hflushes f hf
      · rcases List.mem_singleton.mp hf with rfl
        simpa using hfinal
    · rw [if_neg h1]
      exact ih cur ht

/-- The group-by-trip scan of `pre ++ R ++ post`, where `R` is a nonempty
run of rows of trip `tid` and neither `pre` nor `post` contains such a row,
stores exactly `R` under `tid`. -/
theorem scan_lookup (hs : List Field) (tid : Field) (pre R post : List Rec)
    (htid : tid ≠ []) (hR : R ≠ [])
    (hRall : ∀ r ∈ R, tripF hs r = some tid)
    (hpre : ∀ r ∈ pre, tripF hs r ≠ some tid)
    (hpost : ∀ r ∈ post, tripF hs r ≠ some tid) :
    flushLookup (processStopTimes hs (pre ++ (R ++ post))) tid = some R := by
  unfold processStopTimes flushLookup
  obtain ⟨hpf, hpc⟩ := scanAux_noTid hs tid pre none [] (by simp) hpre
  have hnone := scanAux_cid_none hs pre none []
  rw [scanAux_append hs tid pre (R ++ post) none []]
  rw [scanAux_append hs tid R post]
  rcases hsplit : scanAux hs pre none [] with ⟨fl1, cid1, cur1⟩
  rw [hsplit] at hpf hpc hnone
  simp only at hpf hpc hnone ⊢
  have hfl1 : fl1.filter (fun f => decide (f.1 = some tid)) = [] := by
    rw [List.filter_eq_nil_iff]
    intro f hf
    simpa using hpf f hf
  have hmid := scanAux_tidRun hs tid R cid1 cur1 hR hRall htid hpc
  by_cases hn : cid1 = none
  · subst hn
    have hcur : cur1 = [] := by
      have := (hnone rfl).1
      exact (Prod.mk.injEq _ _ _ _).mp this |>.2
    subst hcur
    rw [if_pos rfl] at hmid
    rw [hmid]
    simp only [List.nil_append]
    rw [List.append_assoc, List.filter_append, hfl1, List.nil_append]
    rw [scanAux_post hs tid post R hpost]
    rfl
  · rw [if_neg hn] at hmid
    rw [hmid]
    simp only []
    rw [List.append_assoc, List.filter_append, hfl1, List.nil_append]
    simp only [List.cons_append, List.filter_cons]
    rw [if_neg (by simpa using hpc)]
    simp only [List.nil_append]
    rw [scanAux_post hs tid post R hpost]
    rfl

end GtfsIndex

namespace GtfsIndex

/-- In a pairwise-`le` list whose members satisfy a convexity property for
`Q`, once a `Q`-element has been seen, the `Q`-elements form an initial run:
everything after the first failure also fails. -/
theorem filter_run_of_pairwise (le : α → α → Bool) (Q : α → Bool) (l0 : List α)
    (conv : ∀ x ∈ l0, ∀ y ∈ l0, ∀ z ∈ l0, le x y = true → le y z = true →
      Q x = true → Q z = true → Q y = true) :
    ∀ (t : List α) (a : α), a ∈ l0 → (∀ y ∈ t, y ∈ l0) →
      List.Pairwise (fun x y => le x y = true) t → Q a = true →
      (∀ y ∈ t, le a y = true) →
      ∃ post, t = t.filter Q ++ post ∧ ∀ x ∈ post, Q x = false := by
  intro t
  induction t with
  | nil => intro a _ _ _ _ _; exact ⟨[], by simp, by simp⟩
  | cons b t' ih =>
    intro a ha hsub hp hQa hle
    cases hb : Q b with
    | true =>
      obtain ⟨post, heq, hpost⟩ := ih b (hsub b (by simp))
        (fun y hy => hsub y (by simp [hy]))
        (List.pairwise_cons.mp hp).2 hb
        (fun y hy => (List.pairwise_cons.mp hp).1 y hy)
      refine ⟨post, ?_, hpost⟩
      rw [List.filter_cons, if_pos (by simp [hb])]
      rw [List.cons_append, ← heq]
    | false =>
      have hall : ∀ z ∈ t', Q z = false := by
        intro z hz
        cases hQz : Q z with
        | false => rfl
        | true =>
          have hQb := conv a ha b (hsub b (by simp)) z (hsub z (by simp [hz]))
            (hle b (by simp)) ((List.pairwise_cons.mp hp).1 z hz) hQa hQz
          rw [hQb] at hb
          cases hb
      refine ⟨b :: t', ?_, ?_⟩
      · have : (b :: t').filter Q = [] := by
          rw [List.filter_eq_nil_iff]
          intro x hx
          rcases List.mem_cons.mp hx with rfl | hx
          · simp [hb]
          · simp [hall x hx]
        rw [this, List.nil_append]
      · intro x hx
        rcases List.mem_cons.mp hx with rfl | hx
        · exact hb
        · exact hall x hx

/-- A pairwise-`le` list whose members satisfy the convexity property splits
as `pre ++ filter Q ++ post` with no `Q`-elements outside the middle block:
the `Q`-elements are consecutive. -/
theorem pairwise_filter_decomp (le : α → α → Bool) (Q : α → Bool) (l0 : List α)
    (conv : ∀ x ∈ l0, ∀ y ∈ l0, ∀ z ∈ l0, le x y = true → le y z = true →
      Q x = true → Q z = true → Q y = true) :
    ∀ l, (∀ x ∈ l, x ∈ l0) → List.Pairwise (fun x y => le x y = true) l →
      ∃ pre post, l = pre ++ (l.filter Q ++ post)
        ∧ (∀ x ∈ pre, Q x = false) ∧ (∀ x ∈ post, Q x = false) := by
  intro l
  induction l with
  | nil => intro _ _; exact ⟨[], [], by simp, by simp, by simp⟩
  | cons a t ih =>
    intro hsub hp
    cases hQa : Q a with
    | true =>
      obtain ⟨post, heq, hpost⟩ := filter_run_of_pairwise le Q l0 conv t a
        (hsub a (by simp)) (fun y hy => hsub y (by simp [hy]))
        (List.pairwise_cons.mp hp).2 hQa
        (fun y hy => (List.pairwise_cons.mp hp).1 y hy)
      refine ⟨[], post, ?_, by simp, hpost⟩
      rw [List.filter_cons, if_pos (by simp [hQa]), List.nil_append, List.cons_append,
        ← heq]
    | false =>
      obtain ⟨pre, post, heq, hpre, hpost⟩ := ih (fun y hy => hsub y (by simp [hy]))
        (List.pairwise_cons.mp hp).2
      refine ⟨a :: pre, post, ?_, ?_, hpost⟩
      · rw [List.filter_cons, if_neg (by simp [hQa]), List.cons_append, ← heq]
      · intro x hx
        rcases List.mem_cons.mp hx with rfl | hx
        · exact hQa
        · exact hpre x hx

end GtfsIndex

namespace GtfsIndex

open JsPrim

/-! ### Clean text and parsing round trips -/

/-- A field value free of the CSV-significant characters (comma, double
quote, CR, LF). -/
def cleanF (f : Field) : Bool :=
  f.all (fun c => !(c = ',') && !isBadCh c)

/-- `lineOf` of a singleton. -/
theorem lineOf_single (f : Field) : lineOf [f] = f := by
  simp [lineOf, List.intercalate, List.intersperse]

/-- `lineOf` of at least two fields. -/
theorem lineOf_cons₂ (f g : Field) (t : List Field) :
    lineOf (f :: g :: t) = f ++ ',' :: lineOf (g :: t) := by
  simp [lineOf, List.intercalate, List.intersperse]

/-- Every character of a joined row is a comma or comes from a field. -/
theorem mem_lineOf (r : List Field) (c : Char) (hc : c ∈ lineOf r) :
    c = ',' ∨ ∃ f ∈ r, c ∈ f := by
  induction r with
  | nil => cases hc
  | cons f t ih =>
    cases t with
    | nil =>
      rw [lineOf_single] at hc
      exact Or.inr ⟨f, by simp, hc⟩
    | cons g t' =>
      rw [lineOf_cons₂] at hc
      rcases List.mem_append.mp hc with hc | hc
      · exact Or.inr ⟨f, by simp, hc⟩
      · rcases List.mem_cons.mp hc with rfl | hc
        · exact Or.inl rfl
        · rcases ih hc with h | ⟨f', hf', hcf'⟩
          · exact Or.inl h
          · exact Or.inr ⟨f', by simp [List.mem_cons.mp hf'], hcf'⟩

/-- `stripBad` leaves a string of harmless characters unchanged. -/
theorem stripBad_eq_self (l : Field) (h : ∀ c ∈ l, isBadCh c = false) :
    stripBad l = l := by
  refine List.filter_eq_self.mpr ?_
  intro c hc
  rw [h c hc]
  rfl

/-- `stripBad` leaves a clean joined row unchanged (commas are harmless). -/
theorem stripBad_lineOf (r : List Field) (h : ∀ f ∈ r, cleanF f = true) :
    stripBad (lineOf r) = lineOf r := by
  refine stripBad_eq_self _ ?_
  intro c hc
  rcases mem_lineOf r c hc with rfl | ⟨f, hf, hcf⟩
  · decide
  · have := List.all_eq_true.mp (h f hf) c hcf
    simp only [Bool.and_eq_true, Bool.not_eq_true'] at this
    exact this.2

/-- Splitting a clean joined row returns the fields. -/
theorem splitComma_lineOf (r : List Field) (h : ∀ f ∈ r, cleanF f = true)
    (hne : r ≠ []) : splitComma (lineOf r) = r := by
  refine List.splitOn_intercalate r ',' ?_ hne
  intro f hf hin
  have h2 := List.all_eq_true.mp (h f hf) ',' hin
  exact absurd h2 (by decide)

/-- Mapping a function that fixes every member is the identity. -/
theorem map_eq_self_of (f : α → α) (l : List α) (h : ∀ x ∈ l, f x = x) :
    l.map f = l := by
  induction l with
  | nil => rfl
  | cons a t ih =>
    simp only [List.map_cons, h a (by simp), ih (fun x hx => h x (by simp [hx]))]

/-- A pattern occurs at the start of itself plus anything. -/
theorem leadsWith_self_append (pat t : Field) : leadsWith pat (pat ++ t) = true := by
  induction pat with
  | nil => rfl
  | cons c p ih => simp [leadsWith, ih]

/-- `hasRun` accepts any list when the pattern is empty. -/
theorem hasRun_nil_pat (l : Field) : hasRun [] l = true := by
  cases l with
  | nil => rfl
  | cons c t => simp [hasRun, leadsWith]

/-- `hasRun` finds the pattern at the head. -/
theorem hasRun_self_append (pat t : Field) : hasRun pat (pat ++ t) = true := by
  cases pat with
  | nil => exact hasRun_nil_pat t
  | cons c p =>
    rw [List.cons_append]
    simp [hasRun, leadsWith, leadsWith_self_append]

/-- `hasRun` survives prepending. -/
theorem hasRun_append_left (pat s l : Field) (h : hasRun pat l = true) :
    hasRun pat (s ++ l) = true := by
  induction s with
  | nil => simpa using h
  | cons c s' ih =>
    rw [List.cons_append]
    simp [hasRun]
    right
    simpa [hasRun] using ih

/-- `hasRun` finds a pattern that occurs anywhere. -/
theorem hasRun_of_occurrence (pat s t : Field) :
    hasRun pat (s ++ (pat ++ t)) = true :=
  hasRun_append_left pat s (pat ++ t) (hasRun_self_append pat t)

/-- A field of a row is found by `grep` on the joined row. -/
theorem hasRun_of_mem (a : Field) (r : List Field) (ha : a ∈ r) :
    hasRun a (lineOf r) = true := by
  have : ∃ s t, lineOf r = s ++ (a ++ t) := by
    induction r with
    | nil => cases ha
    | cons f rest ih =>
      rcases List.mem_cons.mp ha with rfl | ha'
      · cases rest with
        | nil => exact ⟨[], [], by simp [lineOf_single]⟩
        | cons g t' => exact ⟨[], ',' :: lineOf (g :: t'), by simp [lineOf_cons₂]⟩
      · cases rest with
        | nil => cases ha'
        | cons g t' =>
          obtain ⟨s, t, hst⟩ := ih ha'
          exact ⟨f ++ ',' :: s, t, by simp [lineOf_cons₂, hst]⟩
  obtain ⟨s, t, hst⟩ := this
  rw [hst]
  exact hasRun_of_occurrence a s t

/-- A digit is not whitespace. -/
theorem not_space_of_digit (c : Char) (h : isDigitCh c = true) : isSpaceCh c = false := by
  simp only [isDigitCh, Bool.and_eq_true, decide_eq_true_eq] at h
  simp only [isSpaceCh, Bool.or_eq_false_iff, decide_eq_false_iff_not]
  omega

/-- `parseInt` of a pure digit string is its value. -/
theorem parseIntJs_digits (s : Field) (h1 : s ≠ []) (h2 : s.all isDigitCh = true) :
    parseIntJs s = some (natOfDigits s : Int) := by
  cases s with
  | nil => exact absurd rfl h1
  | cons c rest =>
    have hc : isDigitCh c = true := List.all_eq_true.mp h2 c (by simp)
    have hdrop : (c :: rest).dropWhile isSpaceCh = c :: rest := by
      rw [List.dropWhile_cons, if_neg (by rw [not_space_of_digit c hc]; simp)]
    have htake : (c :: rest).takeWhile isDigitCh = c :: rest :=
      List.takeWhile_eq_self_iff.mpr (List.all_eq_true.mp h2)
    have hcm : ¬(c = '-') := by
      intro h
      subst h
      simp [isDigitCh] at hc
    have hcp : ¬(c = '+') := by
      intro h
      subst h
      simp [isDigitCh] at hc
    unfold parseIntJs
    rw [hdrop]
    simp only [if_neg hcm, if_neg hcp]
    unfold parseIntCore
    rw [htake, if_neg (by simp)]

/-- GNU numeric value of a pure digit string is its value. -/
theorem gnuNumVal_digits (q : Field) (h1 : q ≠ []) (h2 : q.all isDigitCh = true) :
    gnuNumVal (some q) = (natOfDigits q : Int) := by
  cases q with
  | nil => exact absurd rfl h1
  | cons c rest =>
    have hc : isDigitCh c = true := List.all_eq_true.mp h2 c (by simp)
    have hdrop : (c :: rest).dropWhile isSpaceCh = c :: rest := by
      rw [List.dropWhile_cons, if_neg (by rw [not_space_of_digit c hc]; simp)]
    have htake : (c :: rest).takeWhile isDigitCh = c :: rest :=
      List.takeWhile_eq_self_iff.mpr (List.all_eq_true.mp h2)
    have hcm : ¬(c = '-') := by
      intro h
      subst h
      simp [isDigitCh] at hc
    show gnuNumValS (c :: rest) = (natOfDigits (c :: rest) : Int)
    unfold gnuNumValS
    rw [hdrop]
    simp only [if_neg hcm]
    rw [htake]

/-- Looking up every position of a list yields the list. -/
theorem map_range_getElem (l : List α) :
    (List.range l.length).map (fun j => l[j]?) = l.map some := by
  refine List.ext_getElem? ?_
  intro n
  rw [List.getElem?_map, List.getElem?_map]
  by_cases h : n < l.length
  · rw [List.getElem?_range h, List.getElem?_eq_getElem h]
    simp [List.getElem?_eq_getElem h]
  · rw [List.getElem?_eq_none (l := List.range l.length) (by simpa [List.length_range] using h),
      List.getElem?_eq_none (by omega)]
    rfl

/-- A found header index is in range. -/
theorem fieldIdx_lt (name : Field) (hs : List Field) (i : Nat)
    (h : fieldIdx name hs = some i) : i < hs.length := by
  induction hs generalizing i with
  | nil => cases h
  | cons a t ih =>
    unfold fieldIdx at h
    by_cases ha : a = name
    · rw [if_pos ha] at h
      cases h
      simp
    · rw [if_neg ha] at h
      cases hr : fieldIdx name t with
      | none => rw [hr] at h; cases h
      | some j =>
        rw [hr] at h
        have h' : some (j + 1) = some i := h
        cases h'
        have := ih j hr
        simp only [List.length_cons]
        omega

/-- Record access on a fully present row. -/
theorem recGetIx_map_some (r : List Field) (i : Nat) (h : i < r.length) :
    recGetIx (r.map some) (some i) = r[i]? := by
  show ((r.map some)[i]?).getD none = r[i]?
  rw [List.getElem?_map, List.getElem?_eq_getElem h]
  rfl

end GtfsIndex

namespace GtfsIndex

open JsPrim

/-! ### The consistency property of the two stop-times pipelines -/

/-- A GTFS file as header fields plus data rows. -/
def mkFile (hs : List Field) (rows : List (List Field)) : List Field :=
  lineOf hs :: rows.map lineOf

/-- The record a fully present row parses to. -/
def toRec (r : List Field) : Rec := r.map some

/-- Does a row belong to the queried trip (its `trip_id` field, 0-based
position `ti`, equals `tid`)? -/
def rowQ (tid : Field) (ti : Nat) (r : List Field) : Bool := r[ti]? = some tid

/-- The numeric `stop_sequence` key of a row. -/
def rowKey (ss : Nat) (r : List Field) : Nat := natOfDigits (r[ss]?.getD [])

/-- The full-build line comparator pulled back to rows. -/
def rowLe (ti ss : Nat) (x y : List Field) : Bool := fullLe ti ss (lineOf x) (lineOf y)

/-- The hypotheses under which the two pipelines agree for trip `tid`:
clean quote/comma/CR/LF-free fields with exactly one field per header,
`trip_id`/`stop_sequence` located in the header, no grep pollution
(the trip id occurs as a substring only in its own rows, never in the header
line), no other row dictionary-equal to the trip id in the `trip_id` field
(with the trip id containing at least one alphanumeric), digit-string
sequence numbers with pairwise distinct values for the trip, the trip
actually present, and — since `grep` reads its argument as a BRE after its
option parser — a trip id free of regex metacharacters and not starting
with `-`. -/
structure C2Hyp (hs : List Field) (rows : List (List Field)) (tid : Field)
    (ti ss : Nat) : Prop where
  hclean : ∀ h ∈ hs, cleanF h = true
  htrim : ∀ h ∈ hs, trimField h = h
  hrclean : ∀ r ∈ rows, ∀ f ∈ r, cleanF f = true
  hlen : ∀ r ∈ rows, r.length = hs.length
  hti : fieldIdx tripIdF hs = some ti
  hss : fieldIdx stopSeqF hs = some ss
  hhdr : hasRun tid (lineOf hs) = false
  hpol : ∀ r ∈ rows, hasRun tid (lineOf r) = true → r[ti]? = some tid
  hdict : ∀ r ∈ rows, r[ti]? = some tid ∨ dictF (r[ti]?.getD []) ≠ dictF tid
  halnum : dictF tid ≠ []
  hseq : ∀ r ∈ rows, r[ti]? = some tid →
    (r[ss]?.getD []) ≠ [] ∧ (r[ss]?.getD []).all isDigitCh = true
  hnd : ((rows.filter (rowQ tid ti)).map (rowKey ss)).Nodup
  hex : rows.filter (rowQ tid ti) ≠ []
  hbre : tid.all breLiteralCh = true
  hdash : tid.head? ≠ some '-'

/-- The headers read back from the assembled file are the headers. -/
theorem getGtfsHeaders_mkFile (hs : List Field) (rows : List (List Field))
    (hclean : ∀ h ∈ hs, cleanF h = true) (htrim : ∀ h ∈ hs, trimField h = h)
    (hne : hs ≠ []) : getGtfsHeaders (mkFile hs rows) = hs := by
  unfold getGtfsHeaders mkFile
  simp only [List.headD_cons]
  rw [stripBad_lineOf hs hclean, splitComma_lineOf hs hclean hne]
  exact map_eq_self_of trimField hs htrim

/-- Parsing the assembled (possibly reordered) file yields the positional
records. -/
theorem parseRows_clean (hs : List Field) :
    ∀ (L : List (List Field)),
      (∀ r ∈ L, (∀ f ∈ r, cleanF f = true) ∧ r.length = hs.length) → hs ≠ [] →
      parseRows hs.length (L.map lineOf) = .ok (L.map toRec) := by
  intro L
  induction L with
  | nil => intro _ _; rfl
  | cons r t ih =>
    intro h hne
    have hr := h r (by simp)
    have hrne : r ≠ [] := by
      intro hcon
      rw [hcon] at hr
      have := hr.2
      simp at this
      exact hne (List.eq_nil_of_length_eq_zero this.symm)
    simp only [List.map_cons, parseRows]
    rw [splitComma_lineOf r hr.1 hrne, if_pos hr.2,
      ih (fun x hx => h x (by simp [hx])) hne]
    rfl

/-- `csvParseFile` of the assembled file. -/
theorem csvParseFile_mkFile (hs : List Field) (L : List (List Field))
    (hclean : ∀ h ∈ hs, cleanF h = true) (hne : hs ≠ [])
    (h : ∀ r ∈ L, (∀ f ∈ r, cleanF f = true) ∧ r.length = hs.length) :
    csvParseFile (lineOf hs :: L.map lineOf) = .ok (hs, L.map toRec) := by
  show Except.map (fun rs => (splitComma (lineOf hs), rs))
      (parseRows (splitComma (lineOf hs)).length (L.map lineOf)) = .ok (hs, L.map toRec)
  rw [splitComma_lineOf hs hclean hne, parseRows_clean hs L h hne]
  rfl

end GtfsIndex

namespace GtfsIndex

open JsPrim

/-- Characters are equal when their codes are. -/
theorem char_eq_of_toNat (c d : Char) (h : c.toNat = d.toNat) : c = d :=
  Char.ext (UInt32.ext h)

/-- `cmpNat` is reflexive-equal. -/
theorem cmpNat_eq_iff (a b : Nat) : cmpNat a b = .eq ↔ a = b := by
  unfold cmpNat
  constructor
  · intro h
    split_ifs at h
    all_goals first
      | omega
      | cases h
  · intro h
    subst h
    rw [if_neg (by omega), if_neg (by omega)]

/-- `cmpChars` decides equality. -/
theorem cmpChars_eq_iff (a b : Field) : cmpChars a b = .eq ↔ a = b := by
  induction a generalizing b with
  | nil => cases b <;> simp [cmpChars]
  | cons x xs ih =>
    cases b with
    | nil => simp [cmpChars]
    | cons y ys =>
      simp only [cmpChars, then_eq_eq, cmpNat_eq_iff, ih]
      constructor
      · intro ⟨h1, h2⟩
        rw [char_eq_of_toNat x y h1, h2]
      · intro h
        cases h
        exact ⟨rfl, rfl⟩

/-- The first component of a non-`gt` lexicographic comparison is not `gt`. -/
theorem then_ne_gt_left (o p : Ordering) (h : o.then p ≠ .gt) : o ≠ .gt := by
  intro hc
  subst hc
  exact h rfl

/-- `eq.then p = p`. -/
theorem eq_then (p : Ordering) : Ordering.eq.then p = p := rfl

/-- Two strings comparing non-`gt` both ways are equal. -/
theorem cmpChars_antisymm (a b : Field) (h1 : cmpChars a b ≠ .gt)
    (h2 : cmpChars b a ≠ .gt) : a = b := by
  have hswap := isCmp_cmpChars.swap a b
  cases hab : cmpChars a b with
  | gt => exact absurd hab h1
  | eq => exact (cmpChars_eq_iff a b).mp hab
  | lt =>
    rw [hab] at hswap
    have : cmpChars b a = .gt := by
      cases hba : cmpChars b a <;> rw [hba] at hswap <;> first | rfl | cases hswap
    exact absurd this h2

/-- `cmpInt`'s non-`gt` is `≤`. -/
theorem cmpInt_ne_gt_iff (a b : Int) : cmpInt a b ≠ .gt ↔ a ≤ b := by
  unfold cmpInt
  constructor
  · intro h
    by_contra hc
    rw [if_neg (by omega), if_pos (by omega)] at h
    exact h rfl
  · intro h
    split_ifs with h1 h2
    · simp
    · omega
    · simp

/-- `fullLe` as a comparison statement. -/
theorem fullLe_iff (ti ss : Nat) (x y : Field) :
    fullLe ti ss x y = true ↔ fullCmp ti ss x y ≠ .gt := by
  unfold fullLe
  simp

/-- The dictionary key `fullCmp` extracts from a clean joined row. -/
theorem dictKey_lineOf (ti : Nat) (r : List Field)
    (hclean : ∀ f ∈ r, cleanF f = true) (hne : r ≠ []) :
    dictF ((splitComma (lineOf r))[ti]?.getD []) = dictF (r[ti]?.getD []) := by
  rw [splitComma_lineOf r hclean hne]

/-- The numeric key `fullCmp` extracts from a clean joined row. -/
theorem numKey_lineOf (ss : Nat) (r : List Field)
    (hclean : ∀ f ∈ r, cleanF f = true) (hne : r ≠ []) :
    gnuNumVal (splitComma (lineOf r))[ss]? = gnuNumVal r[ss]? := by
  rw [splitComma_lineOf r hclean hne]

end GtfsIndex

namespace GtfsIndex

open JsPrim

section C2Facts

variable {hs : List Field} {rows : List (List Field)} {tid : Field} {ti ss : Nat}

/-- The header list is nonempty when `trip_id` was found. -/
theorem C2Hyp.hs_ne (H : C2Hyp hs rows tid ti ss) : hs ≠ [] := by
  intro hc
  have h := H.hti
  rw [hc] at h
  simp [fieldIdx] at h

/-- The `trip_id` column is in range. -/
theorem C2Hyp.ti_lt (H : C2Hyp hs rows tid ti ss) : ti < hs.length :=
  fieldIdx_lt tripIdF hs ti H.hti

/-- The `stop_sequence` column is in range. -/
theorem C2Hyp.ss_lt (H : C2Hyp hs rows tid ti ss) : ss < hs.length :=
  fieldIdx_lt stopSeqF hs ss H.hss

/-- Every row is nonempty. -/
theorem C2Hyp.row_ne (H : C2Hyp hs rows tid ti ss) {r : List Field} (hr : r ∈ rows) :
    r ≠ [] := by
  intro hc
  have := H.hlen r hr
  rw [hc] at this
  simp at this
  have := H.ti_lt
  omega

/-- The queried trip id is nonempty. -/
theorem C2Hyp.tid_ne (H : C2Hyp hs rows tid ti ss) : tid ≠ [] := by
  intro hc
  apply H.halnum
  rw [hc]
  rfl

/-- The trip id occurs as a field of a row, hence is clean. -/
theorem C2Hyp.tid_clean (H : C2Hyp hs rows tid ti ss) : cleanF tid = true := by
  have hex := H.hex
  cases hfe : rows.filter (rowQ tid ti) with
  | nil => exact absurd hfe hex
  | cons r t =>
    have hrmem : r ∈ rows.filter (rowQ tid ti) := by rw [hfe]; simp
    have hr : r ∈ rows := List.mem_of_mem_filter hrmem
    have hq : rowQ tid ti r = true := List.of_mem_filter hrmem
    unfold rowQ at hq
    simp only [decide_eq_true_eq] at hq
    obtain ⟨hlt, hget⟩ := List.getElem?_eq_some_iff.mp hq
    have : tid ∈ r := by rw [← hget]; exact List.getElem_mem hlt
    exact H.hrclean r hr tid this

/-- `data['trip_id']` of a row's record is the row's `trip_id` field. -/
theorem C2Hyp.tripF_toRec (H : C2Hyp hs rows tid ti ss) {r : List Field}
    (hr : r ∈ rows) : tripF hs (toRec r) = r[ti]? := by
  unfold tripF
  rw [H.hti]
  exact recGetIx_map_some r ti (by rw [H.hlen r hr]; exact H.ti_lt)

/-- The `stop_sequence` value of a row's record is the row's field. -/
theorem C2Hyp.seq_toRec (H : C2Hyp hs rows tid ti ss) {r : List Field}
    (hr : r ∈ rows) : recGetIx (toRec r) (some ss) = r[ss]? :=
  recGetIx_map_some r ss (by rw [H.hlen r hr]; exact H.ss_lt)

/-- `grep` matches exactly the queried trip's rows. -/
theorem C2Hyp.hasRun_eq (H : C2Hyp hs rows tid ti ss) {r : List Field}
    (hr : r ∈ rows) : hasRun tid (lineOf r) = rowQ tid ti r := by
  cases hq : rowQ tid ti r with
  | true =>
    unfold rowQ at hq
    simp only [decide_eq_true_eq] at hq
    obtain ⟨hlt, hget⟩ := List.getElem?_eq_some_iff.mp hq
    have : tid ∈ r := by rw [← hget]; exact List.getElem_mem hlt
    exact hasRun_of_mem tid r this
  | false =>
    cases hrun : hasRun tid (lineOf r) with
    | false => rfl
    | true =>
      have := H.hpol r hr hrun
      unfold rowQ at hq
      rw [this] at hq
      simp at hq

/-- The numeric sort key of a queried-trip row is its sequence value. -/
theorem C2Hyp.numKey_q (H : C2Hyp hs rows tid ti ss) {r : List Field}
    (hr : r ∈ rows) (hq : rowQ tid ti r = true) :
    gnuNumVal r[ss]? = (rowKey ss r : Int) := by
  have hslt : ss < r.length := by rw [H.hlen r hr]; exact H.ss_lt
  have hsome : r[ss]? = some r[ss] := List.getElem?_eq_getElem hslt
  have hgd : r[ss]?.getD [] = r[ss] := by rw [hsome]; rfl
  obtain ⟨hne, hdig⟩ := H.hseq r hr (by
    unfold rowQ at hq
    simpa using hq)
  rw [hsome]
  unfold rowKey
  rw [hgd] at hne hdig ⊢
  exact gnuNumVal_digits r[ss] hne hdig

/-- The grep-side sort key of a queried-trip row's record. -/
theorem C2Hyp.seqInt_q (H : C2Hyp hs rows tid ti ss) {r : List Field}
    (hr : r ∈ rows) (hq : rowQ tid ti r = true) :
    seqIntOf (some ss) (toRec r) = some (rowKey ss r : Int) := by
  have hslt : ss < r.length := by rw [H.hlen r hr]; exact H.ss_lt
  have hsome : r[ss]? = some r[ss] := List.getElem?_eq_getElem hslt
  have hgd : r[ss]?.getD [] = r[ss] := by rw [hsome]; rfl
  obtain ⟨hne, hdig⟩ := H.hseq r hr (by
    unfold rowQ at hq
    simpa using hq)
  unfold seqIntOf
  rw [H.seq_toRec hr, hsome]
  unfold rowKey
  rw [hgd] at hne hdig ⊢
  exact parseIntJs_digits r[ss] hne hdig

/-- The dictionary key of a queried-trip row is the trip id's. -/
theorem C2Hyp.dictKey_q (H : C2Hyp hs rows tid ti ss) {r : List Field}
    (hq : rowQ tid ti r = true) :
    dictF (r[ti]?.getD []) = dictF tid := by
  unfold rowQ at hq
  simp only [decide_eq_true_eq] at hq
  rw [hq]
  rfl

end C2Facts

end GtfsIndex

namespace GtfsIndex

open JsPrim

section C2Main

variable {hs : List Field} {rows : List (List Field)} {tid : Field} {ti ss : Nat}

/-- The row comparator is total. -/
theorem rowLe_total (ti ss : Nat) (x y : List Field) :
    rowLe ti ss x y = true ∨ rowLe ti ss y x = true := by
  unfold rowLe
  rw [fullLe_iff, fullLe_iff]
  exact isCmp_le_total (isCmp_fullCmp ti ss) (lineOf x) (lineOf y)

/-- The row comparator is transitive. -/
theorem rowLe_trans (ti ss : Nat) (x y z : List Field)
    (h1 : rowLe ti ss x y = true) (h2 : rowLe ti ss y z = true) :
    rowLe ti ss x z = true := by
  unfold rowLe at h1 h2 ⊢
  rw [fullLe_iff] at h1 h2 ⊢
  exact isCmp_le_trans (isCmp_fullCmp ti ss) (lineOf x) (lineOf y) (lineOf z) h1 h2

/-- A row between two queried-trip rows in the sorted order is itself a
queried-trip row (dictionary keys squeeze, then the separation hypothesis). -/
theorem C2Hyp.convex (H : C2Hyp hs rows tid ti ss) :
    ∀ x ∈ rows, ∀ y ∈ rows, ∀ z ∈ rows,
      rowLe ti ss x y = true → rowLe ti ss y z = true →
      rowQ tid ti x = true → rowQ tid ti z = true → rowQ tid ti y = true := by
  intro x hx y hy z hz hxy hyz hQx hQz
  have hclx : ∀ f ∈ x, cleanF f = true := H.hrclean x hx
  have hcly : ∀ f ∈ y, cleanF f = true := H.hrclean y hy
  have hclz : ∀ f ∈ z, cleanF f = true := H.hrclean z hz
  have hdx : dictF ((splitComma (lineOf x))[ti]?.getD []) = dictF tid := by
    rw [dictKey_lineOf ti x hclx (H.row_ne hx)]
    exact H.dictKey_q hQx
  have hdz : dictF ((splitComma (lineOf z))[ti]?.getD []) = dictF tid := by
    rw [dictKey_lineOf ti z hclz (H.row_ne hz)]
    exact H.dictKey_q hQz
  unfold rowLe at hxy hyz
  rw [fullLe_iff] at hxy hyz
  have hxy1 : cmpChars (dictF ((splitComma (lineOf x))[ti]?.getD []))
      (dictF ((splitComma (lineOf y))[ti]?.getD [])) ≠ .gt :=
    then_ne_gt_left _ _ hxy
  have hyz1 : cmpChars (dictF ((splitComma (lineOf y))[ti]?.getD []))
      (dictF ((splitComma (lineOf z))[ti]?.getD [])) ≠ .gt :=
    then_ne_gt_left _ _ hyz
  rw [hdx] at hxy1
  rw [hdz] at hyz1
  have hdy : dictF ((splitComma (lineOf y))[ti]?.getD []) = dictF tid :=
    (cmpChars_antisymm _ _ hyz1 hxy1).symm ▸ rfl
  rw [dictKey_lineOf ti y hcly (H.row_ne hy)] at hdy
  rcases H.hdict y hy with hq | hne
  · unfold rowQ
    simp [hq]
  · exact absurd hdy hne

/-- Within the queried trip, the sorted order is by numeric sequence key. -/
theorem C2Hyp.rowLe_key (H : C2Hyp hs rows tid ti ss) {x y : List Field}
    (hx : x ∈ rows) (hy : y ∈ rows) (hQx : rowQ tid ti x = true)
    (hQy : rowQ tid ti y = true) (hxy : rowLe ti ss x y = true) :
    rowKey ss x ≤ rowKey ss y := by
  have hdx : dictF ((splitComma (lineOf x))[ti]?.getD []) = dictF tid := by
    rw [dictKey_lineOf ti x (H.hrclean x hx) (H.row_ne hx)]
    exact H.dictKey_q hQx
  have hdy : dictF ((splitComma (lineOf y))[ti]?.getD []) = dictF tid := by
    rw [dictKey_lineOf ti y (H.hrclean y hy) (H.row_ne hy)]
    exact H.dictKey_q hQy
  unfold rowLe at hxy
  rw [fullLe_iff] at hxy
  have heq : cmpChars (dictF ((splitComma (lineOf x))[ti]?.getD []))
      (dictF ((splitComma (lineOf y))[ti]?.getD [])) = .eq := by
    rw [hdx, hdy]
    exact (cmpChars_eq_iff _ _).mpr rfl
  have hfc : fullCmp ti ss (lineOf x) (lineOf y)
      = (cmpChars (dictF ((splitComma (lineOf x))[ti]?.getD []))
          (dictF ((splitComma (lineOf y))[ti]?.getD []))).then
        ((cmpInt (gnuNumVal (splitComma (lineOf x))[ss]?)
            (gnuNumVal (splitComma (lineOf y))[ss]?)).then
          (cmpChars (lineOf x) (lineOf y))) := rfl
  rw [hfc, heq, eq_then] at hxy
  have hnum : cmpInt (gnuNumVal (splitComma (lineOf x))[ss]?)
      (gnuNumVal (splitComma (lineOf y))[ss]?) ≠ .gt :=
    then_ne_gt_left _ _ hxy
  rw [numKey_lineOf ss x (H.hrclean x hx) (H.row_ne hx),
    numKey_lineOf ss y (H.hrclean y hy) (H.row_ne hy),
    H.numKey_q hx hQx, H.numKey_q hy hQy] at hnum
  exact_mod_cast (cmpInt_ne_gt_iff _ _).mp hnum

end C2Main

end GtfsIndex

namespace GtfsIndex

open JsPrim

section C2Pipelines

variable {hs : List Field} {rows : List (List Field)} {tid : Field} {ti ss : Nat}

/-- Rows of the sorted list are rows of the input. -/
theorem mem_insSort_rows {r : List Field} (ti ss : Nat) (rows : List (List Field))
    (hr : r ∈ insSort (rowLe ti ss) rows) : r ∈ rows :=
  mem_insSort _ rows hr

/-- What the full build stores for the queried trip: the sorted rows
restricted to the trip, as records. -/
theorem C2Hyp.fullBuild_char (H : C2Hyp hs rows tid ti ss) :
    fullBuildStopTimes (mkFile hs rows) tid
      = .ok (some (((insSort (rowLe ti ss) rows).filter (rowQ tid ti)).map toRec)) := by
  have hhd := getGtfsHeaders_mkFile hs rows H.hclean H.htrim H.hs_ne
  unfold fullBuildStopTimes
  rw [hhd]
  simp only [H.hti, H.hss]
  have hsort : sortStopTimes ti ss (mkFile hs rows)
      = lineOf hs :: (insSort (rowLe ti ss) rows).map lineOf := by
    show lineOf hs :: insSort (fullLe ti ss) (rows.map lineOf)
        = lineOf hs :: (insSort (rowLe ti ss) rows).map lineOf
    congr 1
    exact insSort_map (fullLe ti ss) lineOf rows
  rw [hsort]
  have hparse := csvParseFile_mkFile hs (insSort (rowLe ti ss) rows) H.hclean H.hs_ne
    (fun r hr => ⟨H.hrclean r (mem_insSort_rows ti ss rows hr),
      H.hlen r (mem_insSort_rows ti ss rows hr)⟩)
  rw [hparse]
  simp only [Except.map]
  congr 1
  -- decompose the sorted rows around the trip's block
  have hpw : List.Pairwise (fun x y => rowLe ti ss x y = true) (insSort (rowLe ti ss) rows) :=
    insSort_pairwise (rowLe ti ss) rows
      (fun a _ b _ => rowLe_total ti ss a b)
      (fun a _ b _ c _ => rowLe_trans ti ss a b c)
  obtain ⟨pre, post, hdecomp, hpre, hpost⟩ :=
    pairwise_filter_decomp (rowLe ti ss) (rowQ tid ti) rows H.convex
      (insSort (rowLe ti ss) rows) (fun x hx => mem_insSort_rows ti ss rows hx) hpw
  have hmem_pre : ∀ r ∈ pre, r ∈ rows := by
    intro r hr
    refine mem_insSort_rows ti ss rows ?_
    rw [hdecomp]
    simp [hr]
  have hmem_run : ∀ r ∈ (insSort (rowLe ti ss) rows).filter (rowQ tid ti), r ∈ rows :=
    fun r hr => mem_insSort_rows ti ss rows (List.mem_of_mem_filter hr)
  have hmem_post : ∀ r ∈ post, r ∈ rows := by
    intro r hr
    refine mem_insSort_rows ti ss rows ?_
    rw [hdecomp]
    simp [hr]
  have hrun_ne : (insSort (rowLe ti ss) rows).filter (rowQ tid ti) ≠ [] := by
    have hperm : ((insSort (rowLe ti ss) rows).filter (rowQ tid ti)).Perm
        (rows.filter (rowQ tid ti)) := (insSort_perm (rowLe ti ss) rows).filter _
    intro hc
    have := hperm.length_eq
    rw [hc] at this
    have hlenpos := List.length_pos.mpr H.hex
    simp at this
    omega
  have hsplit : (insSort (rowLe ti ss) rows).map toRec
      = pre.map toRec
        ++ ((((insSort (rowLe ti ss) rows).filter (rowQ tid ti)).map toRec)
          ++ post.map toRec) := by
    conv_lhs => rw [hdecomp]
    rw [List.map_append, List.map_append]
  rw [hsplit]
  rw [scan_lookup hs tid (pre.map toRec)
    (((insSort (rowLe ti ss) rows).filter (rowQ tid ti)).map toRec)
    (post.map toRec) H.tid_ne
    (by
      intro hc
      exact hrun_ne (List.map_eq_nil_iff.mp hc))
    (by
      intro rec hrec
      obtain ⟨r, hr, rfl⟩ := List.mem_map.mp hrec
      rw [H.tripF_toRec (hmem_run r hr)]
      have := List.of_mem_filter hr
      unfold rowQ at this
      simpa using this)
    (by
      intro rec hrec
      obtain ⟨r, hr, rfl⟩ := List.mem_map.mp hrec
      rw [H.tripF_toRec (hmem_pre r hr)]
      have := hpre r hr
      unfold rowQ at this
      simpa using this)
    (by
      intro rec hrec
      obtain ⟨r, hr, rfl⟩ := List.mem_map.mp hrec
      rw [H.tripF_toRec (hmem_post r hr)]
      have := hpost r hr
      unfold rowQ at this
      simpa using this)]

end C2Pipelines

end GtfsIndex

namespace GtfsIndex

open JsPrim

section C2Grep

variable {hs : List Field} {rows : List (List Field)} {tid : Field} {ti ss : Nat}

/-- For a metacharacter-free pattern `parsePieces` yields the literal
pieces. -/
theorem parsePieces_literal : ∀ (pat : List Char) (fuel : Nat) (acc : List BrePiece),
    pat.all breLiteralCh = true → pat.length < fuel →
    parsePieces fuel pat acc = some (acc.reverse ++ pat.map litPiece, false) := by
  intro pat
  induction pat with
  | nil =>
    intro fuel acc _ hf
    cases fuel with
    | zero => omega
    | succ f => simp [parsePieces]
  | cons c rest ih =>
    intro fuel acc hall hf
    cases fuel with
    | zero => omega
    | succ f =>
      rw [List.all_cons, Bool.and_eq_true] at hall
      have hc := hall.1
      have hdot : c ≠ '.' := by intro he; subst he; simp [breLiteralCh] at hc
      have hbrk : c ≠ '[' := by intro he; subst he; simp [breLiteralCh] at hc
      have hbsl : c ≠ '\\' := by intro he; subst he; simp [breLiteralCh] at hc
      have hstar : c ≠ '*' := by intro he; subst he; simp [breLiteralCh] at hc
      have hdol : c ≠ '$' := by intro he; subst he; simp [breLiteralCh] at hc
      show parsePieces (f + 1) (c :: rest) acc = _
      unfold parsePieces
      rw [if_neg (fun h => hdol h.1), if_neg hbsl, if_neg hdot, if_neg hstar,
        if_neg hbrk, ih f (litPiece c :: acc) hall.2 (by
          simp only [List.length_cons] at hf
          omega)]
      simp [List.append_assoc]

/-- For a metacharacter-free pattern `parseBre` yields the unanchored
literal-piece pattern. -/
theorem parseBre_literal (pat : Field) (h : pat.all breLiteralCh = true) :
    parseBre pat = some ⟨false, pat.map litPiece, false⟩ := by
  unfold parseBre
  have hhd : pat.head? ≠ some '^' := by
    cases pat with
    | nil => simp
    | cons c t =>
      rw [List.all_cons, Bool.and_eq_true] at h
      have hc := h.1
      intro he
      simp only [List.head?_cons, Option.some.injEq] at he
      subst he
      simp [breLiteralCh] at hc
  rw [if_neg hhd, parsePieces_literal pat (pat.length + 1) [] h (by omega)]
  rfl

/-- Matching literal pieces is the substring-at-head test. -/
theorem matchPieces_litPieces : ∀ (pat l : List Char) (fuel : Nat),
    pat.length + l.length < fuel →
    matchPieces fuel false (pat.map litPiece) l = leadsWith pat l := by
  intro pat
  induction pat with
  | nil =>
    intro l fuel hf
    cases fuel with
    | zero => omega
    | succ f => simp [matchPieces, leadsWith]
  | cons c rest ih =>
    intro l fuel hf
    cases fuel with
    | zero => omega
    | succ f =>
      cases l with
      | nil => simp [matchPieces, litPiece, leadsWith]
      | cons b t =>
        simp only [List.map_cons, matchPieces, litPiece, leadsWith, atomTest]
        rw [ih t f (by
          simp only [List.length_cons] at hf
          omega), if_neg Bool.false_ne_true]

/-- An unanchored literal-piece pattern matches a line exactly when the
pattern occurs in it as a substring. -/
theorem breLineMatch_litPat (pat l : List Char) :
    breLineMatch ⟨false, pat.map litPiece, false⟩ l = hasRun pat l := by
  show l.tails.any (matchPieces ((pat.map litPiece).length + l.length + 1) false
      (pat.map litPiece)) = hasRun pat l
  rw [List.length_map]
  have hgen : ∀ (m : List Char) (fuel : Nat), pat.length + m.length < fuel →
      m.tails.any (matchPieces fuel false (pat.map litPiece)) = hasRun pat m := by
    intro m
    induction m with
    | nil =>
      intro fuel hf
      have htn : ([] : List Char).tails = [[]] := rfl
      rw [htn]
      simp only [List.any_cons, List.any_nil, Bool.or_false]
      rw [matchPieces_litPieces pat [] fuel (by simpa using hf)]
      rfl
    | cons b t iht =>
      intro fuel hf
      rw [List.tails_cons]
      simp only [List.any_cons]
      rw [matchPieces_litPieces pat (b :: t) fuel hf, iht fuel (by
        simp only [List.length_cons] at hf
        omega)]
      rfl
  exact hgen l (pat.length + l.length + 1) (by omega)

/-- `grep` with a metacharacter-free, non-option pattern returns exactly the
lines containing it as a substring. -/
theorem grepRun_literal (pat : Field) (h1 : pat.all breLiteralCh = true)
    (h2 : pat.head? ≠ some '-') (lines : List Field) :
    grepRun pat lines = .ok (lines.filter (hasRun pat)) := by
  unfold grepRun
  rw [if_neg h2, parseBre_literal pat h1]
  show Except.ok (lines.filter (breLineMatch ⟨false, pat.map litPiece, false⟩))
    = Except.ok (lines.filter (hasRun pat))
  congr 1
  refine List.filter_congr ?_
  intro l _
  exact breLineMatch_litPat pat l

/-- What the scoped extraction stores for the queried trip: exactly the
trip's rows as records, sorted by the JavaScript sequence comparator. -/
theorem C2Hyp.grep_char (H : C2Hyp hs rows tid ti ss) :
    grepStopTimes (mkFile hs rows) tid
      = .ok (insSort (jsSeqLe (some ss)) ((rows.filter (rowQ tid ti)).map toRec)) := by
  have hhd := getGtfsHeaders_mkFile hs rows H.hclean H.htrim H.hs_ne
  unfold grepStopTimes
  rw [hhd]
  simp only [H.hss]
  rw [grepRun_literal tid H.hbre H.hdash]
  simp only [Except.map]
  have hgrep : (mkFile hs rows).filter (hasRun tid)
      = (rows.filter (rowQ tid ti)).map lineOf := by
    unfold mkFile
    rw [List.filter_cons, if_neg (by rw [H.hhdr]; simp)]
    rw [List.filter_map]
    congr 1
    refine List.filter_congr ?_
    intro r hr
    exact H.hasRun_eq hr
  rw [hgrep, List.map_map]
  congr 2
  refine List.map_congr_left ?_
  intro r hr
  have hrr : r ∈ rows := List.mem_of_mem_filter hr
  have hlen : r.length = hs.length := H.hlen r hrr
  show grepParse hs (lineOf r) = toRec r
  unfold grepParse
  rw [stripBad_lineOf r (H.hrclean r hrr),
    splitComma_lineOf r (H.hrclean r hrr) (H.row_ne hrr), ← hlen]
  exact map_range_getElem r

end C2Grep

end GtfsIndex

namespace GtfsIndex

open JsPrim

section C2Final

variable {hs : List Field} {rows : List (List Field)} {tid : Field} {ti ss : Nat}

/-- Both pipelines sort the trip's records into the same list: each is a
permutation of the trip's rows, strictly ordered by the (injective on the
trip) numeric sequence key. -/
theorem C2Hyp.sorted_eq (H : C2Hyp hs rows tid ti ss) :
    insSort (jsSeqLe (some ss)) ((rows.filter (rowQ tid ti)).map toRec)
      = ((insSort (rowLe ti ss) rows).filter (rowQ tid ti)).map toRec := by
  classical
  set key : Rec → Int := fun rec => (seqIntOf (some ss) rec).getD 0 with hkey
  have hbase_mem : ∀ rec ∈ (rows.filter (rowQ tid ti)).map toRec,
      ∃ r, r ∈ rows ∧ rowQ tid ti r = true ∧ rec = toRec r := by
    intro rec hrec
    obtain ⟨r, hr, rfl⟩ := List.mem_map.mp hrec
    exact ⟨r, List.mem_of_mem_filter hr, List.of_mem_filter hr, rfl⟩
  have hkey_toRec : ∀ r ∈ rows, rowQ tid ti r = true →
      key (toRec r) = (rowKey ss r : Int) := by
    intro r hr hq
    rw [hkey]
    simp only [H.seqInt_q hr hq]
    rfl
  have hGperm := insSort_perm (jsSeqLe (some ss)) ((rows.filter (rowQ tid ti)).map toRec)
  have hfperm : ((insSort (rowLe ti ss) rows).filter (rowQ tid ti)).Perm
      (rows.filter (rowQ tid ti)) := (insSort_perm (rowLe ti ss) rows).filter _
  have hGR : (insSort (jsSeqLe (some ss)) ((rows.filter (rowQ tid ti)).map toRec)).Perm
      (((insSort (rowLe ti ss) rows).filter (rowQ tid ti)).map toRec) :=
    hGperm.trans (hfperm.map toRec).symm
  -- the grep side is pairwise-sorted by the key
  have hGpw0 : List.Pairwise (fun a b => jsSeqLe (some ss) a b = true)
      (insSort (jsSeqLe (some ss)) ((rows.filter (rowQ tid ti)).map toRec)) := by
    refine insSort_pairwise _ _ ?_ ?_
    · intro a ha b hb
      obtain ⟨ra, hra, hqa, rfl⟩ := hbase_mem a ha
      obtain ⟨rb, hrb, hqb, rfl⟩ := hbase_mem b hb
      unfold jsSeqLe
      rw [H.seqInt_q hra hqa, H.seqInt_q hrb hqb]
      rcases le_total (rowKey ss ra : Int) (rowKey ss rb : Int) with h | h
      · left; simpa using h
      · right; simpa using h
    · intro a ha b hb c hc h1 h2
      obtain ⟨ra, hra, hqa, rfl⟩ := hbase_mem a ha
      obtain ⟨rb, hrb, hqb, rfl⟩ := hbase_mem b hb
      obtain ⟨rc, hrc, hqc, rfl⟩ := hbase_mem c hc
      unfold jsSeqLe at h1 h2 ⊢
      rw [H.seqInt_q hra hqa, H.seqInt_q hrb hqb] at h1
      rw [H.seqInt_q hrb hqb, H.seqInt_q hrc hqc] at h2
      rw [H.seqInt_q hra hqa, H.seqInt_q hrc hqc]
      simp only [decide_eq_true_eq] at h1 h2 ⊢
      omega
  have hGle : List.Pairwise (fun a b : Rec => key a ≤ key b)
      (insSort (jsSeqLe (some ss)) ((rows.filter (rowQ tid ti)).map toRec)) := by
    refine List.Pairwise.imp_of_mem ?_ hGpw0
    intro a b ha hb hab
    obtain ⟨ra, hra, hqa, rfl⟩ := hbase_mem a (mem_insSort _ _ ha)
    obtain ⟨rb, hrb, hqb, rfl⟩ := hbase_mem b (mem_insSort _ _ hb)
    unfold jsSeqLe at hab
    rw [H.seqInt_q hra hqa, H.seqInt_q hrb hqb] at hab
    rw [hkey_toRec ra hra hqa, hkey_toRec rb hrb hqb]
    simpa using hab
  have hnd_base : ((((rows.filter (rowQ tid ti)).map toRec)).map key).Nodup := by
    rw [List.map_map]
    have heqmap : ((rows.filter (rowQ tid ti)).map (key ∘ toRec))
        = ((rows.filter (rowQ tid ti)).map (rowKey ss)).map (fun n : Nat => (n : Int)) := by
      rw [List.map_map]
      refine List.map_congr_left ?_
      intro r hr
      have := hkey_toRec r (List.mem_of_mem_filter hr) (List.of_mem_filter hr)
      simpa using this
    rw [heqmap]
    exact H.hnd.map Nat.cast_injective
  have hnd_G : (((insSort (jsSeqLe (some ss)) ((rows.filter (rowQ tid ti)).map toRec))).map
      key).Nodup := ((hGperm.map key).nodup_iff).mpr hnd_base
  have hne_G : List.Pairwise (fun a b : Rec => key a ≠ key b)
      (insSort (jsSeqLe (some ss)) ((rows.filter (rowQ tid ti)).map toRec)) :=
    (List.pairwise_map).mp hnd_G
  have hGlt : List.Pairwise (fun a b : Rec => key a < key b)
      (insSort (jsSeqLe (some ss)) ((rows.filter (rowQ tid ti)).map toRec)) :=
    (hGle.and hne_G).imp (fun h => lt_of_le_of_ne h.1 h.2)
  -- the full-build side is pairwise-sorted by the key
  have hpwS : List.Pairwise (fun x y => rowLe ti ss x y = true) (insSort (rowLe ti ss) rows) :=
    insSort_pairwise (rowLe ti ss) rows
      (fun a _ b _ => rowLe_total ti ss a b)
      (fun a _ b _ c _ => rowLe_trans ti ss a b c)
  have hpwF : List.Pairwise (fun x y => rowLe ti ss x y = true)
      ((insSort (rowLe ti ss) rows).filter (rowQ tid ti)) :=
    List.Pairwise.sublist (List.filter_sublist _) hpwS
  have hRle : List.Pairwise (fun x y => rowKey ss x ≤ rowKey ss y)
      ((insSort (rowLe ti ss) rows).filter (rowQ tid ti)) := by
    refine List.Pairwise.imp_of_mem ?_ hpwF
    intro x y hx hy hxy
    exact H.rowLe_key (mem_insSort_rows ti ss rows (List.mem_of_mem_filter hx))
      (mem_insSort_rows ti ss rows (List.mem_of_mem_filter hy))
      (List.of_mem_filter hx) (List.of_mem_filter hy) hxy
  have hnd_F : (((insSort (rowLe ti ss) rows).filter (rowQ tid ti)).map (rowKey ss)).Nodup :=
    ((hfperm.map (rowKey ss)).nodup_iff).mpr H.hnd
  have hne_F : List.Pairwise (fun x y => rowKey ss x ≠ rowKey ss y)
      ((insSort (rowLe ti ss) rows).filter (rowQ tid ti)) :=
    (List.pairwise_map).mp hnd_F
  have hFlt : List.Pairwise (fun x y => rowKey ss x < rowKey ss y)
      ((insSort (rowLe ti ss) rows).filter (rowQ tid ti)) :=
    (hRle.and hne_F).imp (fun h => lt_of_le_of_ne h.1 h.2)
  have hRlt : List.Pairwise (fun a b : Rec => key a < key b)
      (((insSort (rowLe ti ss) rows).filter (rowQ tid ti)).map toRec) := by
    rw [List.pairwise_map]
    refine List.Pairwise.imp_of_mem ?_ hFlt
    intro x y hx hy hxy
    rw [hkey_toRec x (mem_insSort_rows ti ss rows (List.mem_of_mem_filter hx))
        (List.of_mem_filter hx),
      hkey_toRec y (mem_insSort_rows ti ss rows (List.mem_of_mem_filter hy))
        (List.of_mem_filter hy)]
    exact_mod_cast hxy
  haveI : IsAntisymm Rec (fun a b => key a < key b) :=
    ⟨fun a b h1 h2 => absurd (lt_trans h1 h2) (lt_irrefl _)⟩
  exact List.eq_of_perm_of_sorted hGR hGlt hRlt

end C2Final

end GtfsIndex

/-- C2, amended.  The full build (sort by the `sort -t, -k{ti}d -k{ss}n`
comparator, then the streaming group-by-trip scan) and the scoped extraction
(the `grep` child process, positional parse via the header, stable sort by
`parseInt` of `stop_sequence`) store the *same* StopTime list for the queried
trip, provided: fields are clean (no comma, quote, CR or LF) and rows match
the header's width; `trip_id` and `stop_sequence` are header columns; the
trip id is free of BRE metacharacters and does not start with `-` (so `grep`
matches exactly its literal substring occurrences) and occurs as a substring
only in its own rows (never in the header line nor in another trip's line);
no other row's trip id is dictionary-order-equal to it (and it holds at least
one alphanumeric, so the sort cannot interleave foreign rows); the trip's
sequence values are nonempty digit strings, pairwise distinct; and the trip
is present.  Without the no-pollution proviso the lists differ
(`C2_counterexample`). -/
theorem C2_amended (hs : List Field) (rows : List (List Field)) (tid : Field)
    (ti ss : Nat) (H : C2Hyp hs rows tid ti ss) :
    ∃ L, fullBuildStopTimes (mkFile hs rows) tid = .ok (some L)
      ∧ grepStopTimes (mkFile hs rows) tid = .ok L :=
  ⟨_, H.fullBuild_char, H.grep_char.trans (congrArg Except.ok H.sorted_eq)⟩

/-- C2, witness: the amended theorem at a concrete three-row file with two
rows of trip `7` (sequences 2 and 1, given out of order) and one row of trip
`3`; both pipelines store the same two records in sequence order. -/
theorem C2_witness :
    ∃ L, fullBuildStopTimes
        (mkFile ["trip_id".toList, "stop_sequence".toList, "stop_id".toList]
          [["7".toList, "2".toList, "B".toList],
           ["7".toList, "1".toList, "A".toList],
           ["3".toList, "5".toList, "C".toList]]) "7".toList = .ok (some L)
      ∧ grepStopTimes
        (mkFile ["trip_id".toList, "stop_sequence".toList, "stop_id".toList]
          [["7".toList, "2".toList, "B".toList],
           ["7".toList, "1".toList, "A".toList],
           ["3".toList, "5".toList, "C".toList]]) "7".toList = .ok L :=
  C2_amended _ _ _ 0 1
    ⟨by decide, by decide, by decide, by decide, by decide, by decide, by decide,
     by decide, by decide, by decide, by decide, by decide, by decide,
     by decide, by decide⟩
